import Mathlib

/-!
# Verification of the kave wire protocol and LSM store

Shallow embedding of `src/proto.rs` (the `Proto` reader state machine and
writers) and `src/store/lsm.rs` (`LSMStore::get` / `LSMStore::transact`).

Conventions:
* Bytes are `Nat` (with their numeric ASCII values, e.g. 58 = colon `:`,
  10 = newline).
* The asynchronous byte source (`Proto::read_buf`) is modelled as a list of
  `Event`s: each `needs_read` refill consumes the next event, which is either
  a chunk of bytes delivered by `reader.read_buf`, an `UnexpectedEof` error
  (mapped by `read_buf` to `ProtoRead::Eof`), a cancellation win in the
  `tokio::select!`, or another I/O error kind.  When the event list runs out
  while the machine still needs bytes the run result is `.starved`
  (the real program would block on the socket).
* Rust `usize` arithmetic: lengths parse via `str::parse::<usize>`, which
  accepts an optional leading `+` and fails on overflow past
  `usize::MAX = 2^64 - 1`.
-/

/-! ## Byte-level helpers for `src/proto.rs` -/

/-- Drop one leading `+` (byte 43), as Rust's `usize::from_str` does before
reading the digits. -/
def stripPlus (s : List Nat) : List Nat :=
  match s with
  | [] => []
  | b :: t => if b = 43 then t else b :: t

/-- `str::parse::<usize>()` on raw bytes: an optional leading `+`, then one or
more ASCII digits, failing on overflow past `2^64 - 1` (64-bit `usize`). -/
def parseUsize (s : List Nat) : Option Nat :=
  if stripPlus s = [] then none
  else if (stripPlus s).all (fun b => 48 ≤ b && b ≤ 57) then
    if (stripPlus s).foldl (fun a b => a * 10 + (b - 48)) 0 < 2 ^ 64 then
      some ((stripPlus s).foldl (fun a b => a * 10 + (b - 48)) 0)
    else none
  else none

/-- A UTF-8 continuation byte (`80..BF`). -/
def utf8Cont (c : Nat) : Bool := 0x80 ≤ c && c ≤ 0xBF

/-- A two-byte UTF-8 lead byte (`C2..DF`). -/
def utf8Lead2 (b : Nat) : Bool := 0xC2 ≤ b && b ≤ 0xDF

/-- A three-byte UTF-8 lead byte (`E0..EF`). -/
def utf8Lead3 (b : Nat) : Bool := 0xE0 ≤ b && b ≤ 0xEF

/-- A four-byte UTF-8 lead byte (`F0..F4`). -/
def utf8Lead4 (b : Nat) : Bool := 0xF0 ≤ b && b ≤ 0xF4

/-- Allowed range of the first continuation byte after lead `b`: `E0` forbids
overlong encodings (`A0..BF`), `ED` forbids surrogates (`80..9F`), `F0`
forbids overlong encodings (`90..BF`), `F4` caps at `U+10FFFF` (`80..8F`);
every other lead takes a plain continuation byte. -/
def utf8C1 (b c1 : Nat) : Bool :=
  if b = 0xE0 then 0xA0 ≤ c1 && c1 ≤ 0xBF
  else if b = 0xED then 0x80 ≤ c1 && c1 ≤ 0x9F
  else if b = 0xF0 then 0x90 ≤ c1 && c1 ≤ 0xBF
  else if b = 0xF4 then 0x80 ≤ c1 && c1 ≤ 0x8F
  else utf8Cont c1

/-- UTF-8 validity of a byte sequence, following `core::str::from_utf8`:
ASCII bytes stand alone; two-, three- and four-byte sequences need their
continuation bytes, with the first continuation constrained by `utf8C1`
(overlong, surrogate and range restrictions). -/
def utf8Valid : List Nat → Bool
  | [] => true
  | [b] => b < 0x80 && utf8Valid []
  | [b, c1] =>
    if b < 0x80 then utf8Valid [c1]
    else utf8Lead2 b && utf8C1 b c1
  | [b, c1, c2] =>
    if b < 0x80 then utf8Valid [c1, c2]
    else if utf8Lead2 b then utf8C1 b c1 && utf8Valid [c2]
    else utf8Lead3 b && (utf8C1 b c1 && utf8Cont c2)
  | b :: c1 :: c2 :: c3 :: r =>
    if b < 0x80 then utf8Valid (c1 :: c2 :: c3 :: r)
    else if utf8Lead2 b then utf8C1 b c1 && utf8Valid (c2 :: c3 :: r)
    else if utf8Lead3 b then utf8C1 b c1 && (utf8Cont c2 && utf8Valid (c3 :: r))
    else if utf8Lead4 b then
      utf8C1 b c1 && (utf8Cont c2 && (utf8Cont c3 && utf8Valid r))
    else false

/-- `std::str::from_utf8(..)` followed by `.parse::<usize>()`, the combination
used on the accumulated length-field bytes in `Proto::read`. -/
def parseLen (s : List Nat) : Option Nat :=
  if utf8Valid s then parseUsize s else none

/-- Decimal ASCII rendering of a natural number, as produced by
`usize::to_string` (used by the protocol writers and to build request wires). -/
def decDigits (n : Nat) : List Nat :=
  if h : n < 10 then [48 + n]
  else decDigits (n / 10) ++ [48 + n % 10]
decreasing_by exact Nat.div_lt_self (by omega) (by omega)

/-! ## The `Proto::read` state machine (`src/proto.rs`, lines 231-512) -/

/-- The opcode local `op` of `Proto::read`. -/
inductive POp
  | get
  | set
  | echo
deriving DecidableEq, Repr

/-- The `State` enum of `src/proto.rs`. -/
inductive PState
  | start
  | readOp
  | readKeyLen
  | readKey
  | readEcho
  | readValueLen
  | readValue
  | done
deriving DecidableEq, Repr

/-- Distinguishable error exits of `Proto::read` (each corresponds to one
`return Err(..)` site in the source, except `ioError` which is the non-EOF
I/O error propagated from `read_buf`). -/
inductive ErrKind
  | opShort
  | opUnknown
  | keyLenColon
  | keyLenParse
  | valueLenColon
  | valueLenParse
  | keyUtf8
  | ioError
deriving DecidableEq, Repr

/-- The `ProtoOp` result enum.  `get`/`set` carry the raw key bytes, which at
`State::Done` have been validated as UTF-8 (Rust converts them to `String`). -/
inductive ProtoOpM
  | get (key : List Nat)
  | set (key : List Nat) (value : List Nat)
  | echo (msg : List Nat)
  | sysClose
  | cancelled
deriving DecidableEq, Repr

/-- Outcome of one modelled `Proto::read` call. `starved` means the event list
was exhausted while the machine still wanted bytes (the real call would stay
blocked on the socket). -/
inductive ProtoResult
  | ok (op : ProtoOpM)
  | err (e : ErrKind)
  | starved
deriving DecidableEq, Repr

/-- One result of `Proto::read_buf`: a chunk appended by `reader.read_buf`,
an `UnexpectedEof` (surfaced as `ProtoRead::Eof`), a win of the `kill` channel
in the `select!`, or any other I/O error kind. -/
inductive Event
  | chunk (c : List Nat)
  | eofEv
  | cancelEv
  | ioErrEv
deriving DecidableEq, Repr

/-- The mutable state of one `Proto::read` call: the locals `state`, `op`,
`between_colons`, `ptr`, the scratch buffers, plus the `self.buf` and
`self.fresh` fields of `Proto`. -/
structure MState where
  state : PState
  op : POp
  betweenColons : Bool
  ptr : Nat
  buf : List Nat
  keyLenBuf : List Nat
  keyLen : Nat
  key : List Nat
  echo : List Nat
  valueLenBuf : List Nat
  valueLen : Nat
  value : List Nat
  residual : List Nat
  fresh : Bool
deriving DecidableEq, Repr

/-- The persistent part of `Proto` between `read` calls: the internal buffer
`self.buf` and the `self.fresh` flag. -/
structure Session where
  buf : List Nat
  fresh : Bool
deriving DecidableEq, Repr

/-- Result of running one `match state { .. }` arm of the `'state_loop`:
return from `read` (keeping the session fields `self.buf`, `self.fresh`),
fall to the top with `needs_read == true`, or continue the loop in a new
state (`needs_read == false`). -/
inductive ArmOut
  | ret (r : ProtoResult) (s : Session)
  | needRead (m : MState)
  | goto (m : MState)
deriving DecidableEq, Repr

/-- Outcome of the `while` loop in `State::ReadKeyLen` / `State::ReadValueLen`
over the unread part of the buffer: a `return Err` (expected-colon or
parse failure), a parsed length together with the number of bytes consumed
and the final scratch accumulator, or buffer exhaustion. -/
inductive LenOut
  | errColon (b : Nat)
  | errParse
  | finished (consumed : Nat) (acc : List Nat) (value : Nat)
  | exhausted (between : Bool) (acc : List Nat)
deriving DecidableEq, Repr

/-- Add one consumed byte to a `LenOut` (used when the loop advances `ptr`). -/
def LenOut.bump : LenOut → LenOut
  | .finished c a v => .finished (c + 1) a v
  | r => r

/-- The `while ptr < self.buf.len()` loop of `State::ReadKeyLen` and
`State::ReadValueLen`, acting on the unread suffix of the buffer: outside the
colons a non-`:` byte is an error and a `:` switches `between_colons`; inside
the colons a `:` parses the accumulator and any other byte is pushed onto it. -/
def lenLoop : List Nat → Bool → List Nat → LenOut
  | [], between, acc => .exhausted between acc
  | b :: rest, false, acc =>
    if b = 58 then (lenLoop rest true acc).bump else .errColon b
  | b :: rest, true, acc =>
    if b = 58 then
      match parseLen acc with
      | some n => .finished 1 acc n
      | none => .errParse
    else (lenLoop rest true (acc ++ [b])).bump

/-- The `while ptr < self.buf.len() && out.len() < target` copy loop of
`State::ReadKey` / `State::ReadEcho` / `State::ReadValue`, acting on the
unread suffix; returns the bytes consumed and the grown output vector. -/
def copyLoop : List Nat → List Nat → Nat → Nat × List Nat
  | [], out, _ => (0, out)
  | b :: rest, out, target =>
    if out.length < target then
      let r := copyLoop rest (out ++ [b]) target
      (r.1 + 1, r.2)
    else (0, out)

/-- Index (relative to the unread suffix) of the first newline byte, for the
residual-draining scan in `State::Start`. -/
def idxOfNL : List Nat → Option Nat
  | [] => none
  | b :: rest =>
    if b = 10 then some 0
    else match idxOfNL rest with
      | some j => some (j + 1)
      | none => none

/-- `b"GET:"`. -/
def opGET : List Nat := [71, 69, 84, 58]
/-- `b"SET:"`. -/
def opSET : List Nat := [83, 69, 84, 58]
/-- `b"ECHO"`. -/
def opECHO : List Nat := [69, 67, 72, 79]

/-- One iteration of the `'state_loop` `match state` dispatch of
`Proto::read`, with `needs_read == false` on entry.  Mirrors the source arm
by arm; note the absolute assignments `ptr = 3` / `ptr = 4` in the opcode
match of `State::ReadOp`, taken verbatim from the source. -/
def arm (m : MState) : ArmOut :=
  match m.state with
  | .start =>
    if m.fresh then
      .goto { m with state := .readOp, fresh := false }
    else
      match idxOfNL (m.buf.drop m.ptr) with
      | some j =>
        let p := m.ptr + j + 1
        let res := if p < m.buf.length then m.residual ++ m.buf.drop p
                   else m.residual
        .goto { m with state := .readOp, ptr := p, residual := res }
      | none => .needRead { m with ptr := m.buf.length }
  | .readOp =>
    if m.ptr + 4 > m.buf.length then
      if m.ptr = 0 then .ret (.err .opShort) ⟨m.buf, m.fresh⟩
      else .needRead m
    else
      let tok := (m.buf.drop m.ptr).take 4
      if tok = opGET then
        .goto { m with state := .readKeyLen, op := .get, ptr := 3 }
      else if tok = opSET then
        .goto { m with state := .readKeyLen, op := .set, ptr := 3 }
      else if tok = opECHO then
        .goto { m with state := .readKeyLen, op := .echo, ptr := 4 }
      else .ret (.err .opUnknown) ⟨m.buf, m.fresh⟩
  | .readKeyLen =>
    match lenLoop (m.buf.drop m.ptr) m.betweenColons m.keyLenBuf with
    | .errColon _ => .ret (.err .keyLenColon) ⟨m.buf, m.fresh⟩
    | .errParse => .ret (.err .keyLenParse) ⟨m.buf, m.fresh⟩
    | .finished c a n =>
      .goto { m with
              state := if m.op = .echo then .readEcho else .readKey
              ptr := m.ptr + c
              betweenColons := false
              keyLenBuf := a
              keyLen := n }
    | .exhausted between acc =>
      .needRead { m with
                  ptr := m.buf.length
                  betweenColons := between
                  keyLenBuf := acc }
  | .readKey =>
    let r := copyLoop (m.buf.drop m.ptr) m.key m.keyLen
    if r.2.length ≥ m.keyLen then
      .goto { m with
              state := if m.op = .set then .readValueLen else .done
              ptr := m.ptr + r.1
              key := r.2 }
    else .needRead { m with ptr := m.ptr + r.1, key := r.2 }
  | .readEcho =>
    let r := copyLoop (m.buf.drop m.ptr) m.echo m.keyLen
    if r.2.length ≥ m.keyLen then
      .goto { m with state := .done, ptr := m.ptr + r.1, echo := r.2 }
    else .needRead { m with ptr := m.ptr + r.1, echo := r.2 }
  | .readValueLen =>
    match lenLoop (m.buf.drop m.ptr) m.betweenColons m.valueLenBuf with
    | .errColon _ => .ret (.err .valueLenColon) ⟨m.buf, m.fresh⟩
    | .errParse => .ret (.err .valueLenParse) ⟨m.buf, m.fresh⟩
    | .finished c a n =>
      .goto { m with
              state := .readValue
              ptr := m.ptr + c
              betweenColons := false
              valueLenBuf := a
              valueLen := n }
    | .exhausted between acc =>
      .needRead { m with
                  ptr := m.buf.length
                  betweenColons := between
                  valueLenBuf := acc }
  | .readValue =>
    let r := copyLoop (m.buf.drop m.ptr) m.value m.valueLen
    if r.2.length ≥ m.valueLen then
      .goto { m with state := .done, ptr := m.ptr + r.1, value := r.2 }
    else .needRead { m with ptr := m.ptr + r.1, value := r.2 }
  | .done =>
    if utf8Valid m.key then
      match m.op with
      | .echo => .ret (.ok (.echo m.echo)) ⟨m.buf, m.fresh⟩
      | .get => .ret (.ok (.get m.key)) ⟨m.buf, m.fresh⟩
      | .set => .ret (.ok (.set m.key m.value)) ⟨m.buf, m.fresh⟩
    else .ret (.err .keyUtf8) ⟨m.buf, m.fresh⟩

/-- Rank of a parser state: every `continue 'state_loop` with
`needs_read == false` strictly increases it, so at most 7 arms run between
two socket reads. -/
def rank : PState → Nat
  | .start => 0
  | .readOp => 1
  | .readKeyLen => 2
  | .readKey => 3
  | .readEcho => 3
  | .readValueLen => 4
  | .readValue => 5
  | .done => 6

/-- Run up to `k + 1` arms, following `goto` continuations. -/
def driveAux : Nat → MState → ArmOut
  | 0, m => arm m
  | k + 1, m =>
    match arm m with
    | .goto m' => driveAux k m'
    | r => r

/-- Run `'state_loop` arms until the call returns or needs a socket read.
Seven steps always suffice because `rank` strictly increases on `goto`. -/
def drive (m : MState) : ArmOut := driveAux 7 m

/-- The refill sequence at the top of `'state_loop` when `needs_read`:
`self.buf` is cleared and refilled by `read_buf`, then a non-empty residual
is prepended (`residual.append(&mut self.buf)` + `swap`) and `ptr` resets. -/
def refill (m : MState) (c : List Nat) : MState :=
  { m with buf := m.residual ++ c, residual := [], ptr := 0 }

/-- Run the `'state_loop` against a list of pending read events, starting
with `needs_read == false`.  A `ProtoRead::Eof` returns `ProtoOp::SysClose`,
a cancellation returns `ProtoOp::Cancelled`, another I/O error propagates;
at a return the session keeps the current `self.buf` and `self.fresh`. -/
def runFrom : MState → List Event → ProtoResult × Session
  | m, [] =>
    match drive m with
    | .ret r s => (r, s)
    | .goto mr => (.starved, ⟨mr.buf, mr.fresh⟩)
    | .needRead mr => (.starved, ⟨[], mr.fresh⟩)
  | m, ev :: rest =>
    match drive m with
    | .ret r s => (r, s)
    | .goto mr => (.starved, ⟨mr.buf, mr.fresh⟩)
    | .needRead mr =>
      match ev with
      | .chunk c => runFrom (refill mr c) rest
      | .eofEv => (.ok .sysClose, ⟨[], mr.fresh⟩)
      | .cancelEv => (.ok .cancelled, ⟨[], mr.fresh⟩)
      | .ioErrEv => (.err .ioError, ⟨[], mr.fresh⟩)

/-- The locals of `Proto::read` at function entry, over the current session. -/
def initM (s : Session) : MState :=
  { state := .start, op := .get, betweenColons := false, ptr := 0,
    buf := s.buf, keyLenBuf := [], keyLen := 0, key := [], echo := [],
    valueLenBuf := [], valueLen := 0, value := [], residual := [],
    fresh := s.fresh }

/-- One call of `Proto::read`: `needs_read` starts as `self.fresh`, so a
fresh session reads from the socket before dispatching the first arm. -/
def protoRead (s : Session) (evs : List Event) : ProtoResult × Session :=
  if s.fresh then
    match evs with
    | [] => (.starved, ⟨[], (initM s).fresh⟩)
    | .chunk c :: rest => runFrom (refill (initM s) c) rest
    | .eofEv :: _ => (.ok .sysClose, ⟨[], (initM s).fresh⟩)
    | .cancelEv :: _ => (.ok .cancelled, ⟨[], (initM s).fresh⟩)
    | .ioErrEv :: _ => (.err .ioError, ⟨[], (initM s).fresh⟩)
  else runFrom (initM s) evs

/-- A session as built by `Proto::new`: empty buffer, `fresh = true`. -/
def freshSession : Session := ⟨[], true⟩

/-- `Proto::write_echo`: emits `data.len().to_string()`, `b":"`, the payload,
`b"\n"`. -/
def writeEcho (data : List Nat) : List Nat :=
  decDigits data.length ++ [58] ++ data ++ [10]

/-! ## Well-formed requests and their wire format (doc comment of
`Proto::read`, `src/proto.rs` lines 198-229) -/

/-- A request at the protocol level. -/
inductive Request
  | get (key : List Nat)
  | set (key : List Nat) (value : List Nat)
  | echo (msg : List Nat)
deriving DecidableEq, Repr

/-- Wire encoding of a request:
`GET:<klen>:<key>\n`, `SET:<klen>:<key>:<vlen>:<value>\n`,
`ECHO:<mlen>:<msg>\n`, with decimal ASCII lengths. -/
def wire : Request → List Nat
  | .get k => opGET ++ decDigits k.length ++ [58] ++ k ++ [10]
  | .set k v => opSET ++ decDigits k.length ++ [58] ++ k ++ [58] ++
      decDigits v.length ++ [58] ++ v ++ [10]
  | .echo msg => opECHO ++ [58] ++ decDigits msg.length ++ [58] ++ msg ++ [10]

/-- Well-formedness: keys are valid UTF-8 and all lengths fit in `usize`
(the latter holds for every real Rust `Vec`, whose length is at most
`usize::MAX`). -/
def WellFormed : Request → Prop
  | .get k => utf8Valid k = true ∧ k.length < 2 ^ 64
  | .set k v => utf8Valid k = true ∧ k.length < 2 ^ 64 ∧ v.length < 2 ^ 64
  | .echo msg => msg.length < 2 ^ 64

/-- The `ProtoOp` a well-formed request should parse to. -/
def reqOp : Request → ProtoOpM
  | .get k => .get k
  | .set k v => .set k v
  | .echo msg => .echo msg

/-! ## The LSM store (`src/store/lsm.rs`)

`store/mod.rs` (the `Store` trait, `Transaction`, `TransactInstruction`) is
not present in the sources; `Transaction`/`TransactInstruction` are modelled
from the spec.  The external crates are embedded through their contracts:
`rb_tree::RBMap` as a key-to-value map with upserting `insert` and `get`,
and `bloom_filter_rs::BloomFilter` from the spec's membership-filter
contract. -/

/-- Modelled from the spec: a transaction instruction is `Set(key, value)` or
`Delete(key)` (spec section 3, "Transaction"; `store/mod.rs` is absent from
the sources). -/
inductive TransactInstruction
  | set (key : String) (value : List Nat)
  | delete (key : String)
deriving DecidableEq, Repr

/-- Modelled from the spec: a transaction is an ordered, finite list of
instructions (spec section 3; `store/mod.rs` is absent from the sources). -/
structure Transaction where
  instructions : List TransactInstruction
deriving DecidableEq, Repr

/-- A false-positive oracle for the membership filter: given the list of keys
inserted so far (most recent first) and a queried key, whether the filter
spuriously answers "present".  Any such oracle is an admissible behaviour of
the filter contract; the oracle that is constantly `false` is the exact
filter. -/
def FpOracle : Type := List String → String → Bool

/-- Modelled from the spec: `BloomFilter::contains` "returns `false` only if
`bytes` has never been inserted; `true` allows a tunable false-positive rate"
(spec section 4.6).  Membership of the inserted keys is exact; extra `true`
answers come from the oracle.  (Rust queries `key.as_bytes()`; UTF-8 encoding
is injective, so keys are compared as `String`s.) -/
def bloomContains (fp : FpOracle) (inserted : List String) (k : String) : Bool :=
  inserted.contains k || fp inserted k

/-- The state behind the `LSMStore` mutex: the memtable
(`RBMap<String, Option<Vec<u8>>>`, tombstones as `none`) and the set of keys
inserted into the bloom filter.  The `RBMap` is represented as an association
list where the most recent insert for a key shadows older ones. -/
structure LSMStoreData where
  memtable : List (String × Option (List Nat))
  inserted : List String
deriving DecidableEq, Repr

/-- `RBMap::get`: the value of the most recent insert for the key, if any. -/
def mtLookup (m : List (String × Option (List Nat))) (k : String) :
    Option (Option (List Nat)) :=
  match m with
  | [] => none
  | (k', v) :: t => if k' = k then some v else mtLookup t k

/-- `LSMStore::new()`: empty memtable, empty filter. -/
def lsmNew : LSMStoreData := ⟨[], []⟩

/-- One instruction of `LSMStore::transact`: `Set` upserts the value into the
memtable and inserts the key into the bloom filter; `Delete` upserts a
tombstone (`None`) into the memtable only. -/
def applyInstruction (st : LSMStoreData) : TransactInstruction → LSMStoreData
  | .set k v => { memtable := (k, some v) :: st.memtable,
                  inserted := k :: st.inserted }
  | .delete k => { st with memtable := (k, none) :: st.memtable }

/-- `LSMStore::transact`: apply the instructions in list order under the
store lock. -/
def transact (st : LSMStoreData) (t : Transaction) : LSMStoreData :=
  t.instructions.foldl applyInstruction st

/-- A store state reached by applying a sequence of transactions to a new
store. -/
def applyTxns (ts : List Transaction) : LSMStoreData :=
  ts.foldl transact lsmNew

/-- Result of `LSMStore::get`: a value / absence, or the panic of
`mem_result.unwrap()` when the filter said "present" but the memtable has no
entry. -/
inductive GetResult
  | ok (v : Option (List Nat))
  | panicked
deriving DecidableEq, Repr

/-- `LSMStore::get` together with the number of filter probes and memtable
lookups it performs. -/
structure GetTrace where
  result : GetResult
  filterProbes : Nat
  memtableLookups : Nat
deriving DecidableEq, Repr

/-- `LSMStore::get`: probe the filter; on a negative answer return absent
without touching the memtable; otherwise `unwrap()` the memtable lookup
(panicking if it is `None`) and return the value, with a tombstone read as
absent. -/
def lsmGet (fp : FpOracle) (st : LSMStoreData) (k : String) : GetTrace :=
  if bloomContains fp st.inserted k = false then ⟨.ok none, 1, 0⟩
  else
    match mtLookup st.memtable k with
    | none => ⟨.panicked, 1, 1⟩
    | some tv => ⟨.ok tv, 1, 1⟩

/-- The key written by an instruction. -/
def instrKey : TransactInstruction → String
  | .set k _ => k
  | .delete k => k

/-- The effect of the last instruction concerning key `k` across a sequence
of transactions: `some (some v)` after a final `Set(k, v)`, `some none` after
a final `Delete(k)`, `none` if no transaction ever mentions `k`. -/
def lastWrite (ts : List Transaction) (k : String) : Option (Option (List Nat)) :=
  ts.foldl
    (fun acc t =>
      t.instructions.foldl
        (fun a i =>
          match i with
          | .set k' v => if k' = k then some (some v) else a
          | .delete k' => if k' = k then some none else a)
        acc)
    none

/-! ## Facts about the byte-level helpers -/

theorem decDigits_mem (n : Nat) : ∀ b ∈ decDigits n, 48 ≤ b ∧ b ≤ 57 := by
  induction n using Nat.strong_induction_on with
  | _ n ih =>
    rw [decDigits]
    split
    · intro b hb
      simp only [List.mem_singleton] at hb
      omega
    · intro b hb
      rcases List.mem_append.mp hb with h | h
      · exact ih (n / 10) (Nat.div_lt_self (by omega) (by omega)) b h
      · simp only [List.mem_singleton] at h
        have : n % 10 < 10 := Nat.mod_lt _ (by omega)
        omega

theorem decDigits_ne_nil (n : Nat) : decDigits n ≠ [] := by
  rw [decDigits]
  split
  · simp
  · simp

theorem decDigits_foldl (n : Nat) :
    (decDigits n).foldl (fun a b => a * 10 + (b - 48)) 0 = n := by
  induction n using Nat.strong_induction_on with
  | _ n ih =>
    rw [decDigits]
    split
    · simp
    · rw [List.foldl_append]
      rw [ih (n / 10) (Nat.div_lt_self (by omega) (by omega))]
      simp only [List.foldl_cons, List.foldl_nil]
      omega

theorem parseUsize_decDigits (n : Nat) (h : n < 2 ^ 64) :
    parseUsize (decDigits n) = some n := by
  have hall : (decDigits n).all (fun x => 48 ≤ x && x ≤ 57) = true := by
    rw [List.all_eq_true]
    intro x hx
    have := decDigits_mem n x hx
    simp only [Bool.and_eq_true, decide_eq_true_eq]
    omega
  have hstrip : stripPlus (decDigits n) = decDigits n := by
    rcases e : decDigits n with _ | ⟨b, t⟩
    · rfl
    · have hb : 48 ≤ b ∧ b ≤ 57 := decDigits_mem n b (by rw [e]; simp)
      simp only [stripPlus]
      rw [if_neg (by omega)]
  unfold parseUsize
  rw [hstrip, if_neg (decDigits_ne_nil n), if_pos hall, decDigits_foldl,
    if_pos h]

theorem utf8Valid_cons_ascii (b : Nat) (t : List Nat) (hb : b < 0x80) :
    utf8Valid (b :: t) = utf8Valid t := by
  cases t with
  | nil => simp [utf8Valid, hb]
  | cons c1 t1 =>
    cases t1 with
    | nil =>
      simp only [utf8Valid]
      rw [if_pos hb]
    | cons c2 t2 =>
      cases t2 with
      | nil =>
        simp only [utf8Valid]
        rw [if_pos hb]
      | cons c3 r =>
        simp only [utf8Valid]
        rw [if_pos hb]

theorem utf8Valid_ascii (l : List Nat) (h : ∀ b ∈ l, b < 0x80) :
    utf8Valid l = true := by
  induction l with
  | nil => rfl
  | cons b t ih =>
    rw [utf8Valid_cons_ascii b t (h b (List.mem_cons_self b t))]
    exact ih fun x hx => h x (List.mem_cons_of_mem _ hx)

theorem parseLen_decDigits (n : Nat) (h : n < 2 ^ 64) :
    parseLen (decDigits n) = some n := by
  unfold parseLen
  rw [utf8Valid_ascii _ (fun b hb => by have := decDigits_mem n b hb; omega)]
  simp only [if_true]
  exact parseUsize_decDigits n h

theorem decDigits_no_colon (n : Nat) : ∀ b ∈ decDigits n, b ≠ 58 := by
  intro b hb
  have := decDigits_mem n b hb
  omega

/-- A length field containing a non-digit byte anywhere but a single leading
`+` does not parse. -/
theorem parseUsize_bad (ds : List Nat) (i : Nat) (hi : i < ds.length)
    (hbad : ¬(48 ≤ ds.get ⟨i, hi⟩ ∧ ds.get ⟨i, hi⟩ ≤ 57))
    (hplus : ¬(i = 0 ∧ ds.get ⟨i, hi⟩ = 43)) :
    parseUsize ds = none := by
  unfold parseUsize
  rcases ds with _ | ⟨b, t⟩
  · simp at hi
  · by_cases hb : b = 43
    · -- leading plus stripped; the offending byte is inside `t`
      have hstrip : stripPlus (b :: t) = t := by
        simp [stripPlus, hb]
      rw [hstrip]
      rcases i with _ | j
      · exact absurd ⟨rfl, hb⟩ hplus
      · have hj : j < t.length := by simpa using hi
        have hmem : t.get ⟨j, hj⟩ ∈ t := List.get_mem t j hj
        have hget : (b :: t).get ⟨j + 1, hi⟩ = t.get ⟨j, hj⟩ := rfl
        have hallf : ¬ t.all (fun x => 48 ≤ x && x ≤ 57) = true := by
          intro hc
          rw [List.all_eq_true] at hc
          have hv := hc _ hmem
          simp only [Bool.and_eq_true, decide_eq_true_eq] at hv
          rw [hget] at hbad
          exact hbad hv
        by_cases ht : t = []
        · rw [if_pos ht]
        · rw [if_neg ht, if_neg hallf]
    · have hstrip : stripPlus (b :: t) = b :: t := by
        simp [stripPlus, hb]
      rw [hstrip]
      have hmem : (b :: t).get ⟨i, hi⟩ ∈ b :: t := List.get_mem _ i hi
      have hallf : ¬ (b :: t).all (fun x => 48 ≤ x && x ≤ 57) = true := by
        intro hc
        rw [List.all_eq_true] at hc
        have hv := hc _ hmem
        simp only [Bool.and_eq_true, decide_eq_true_eq] at hv
        exact hbad hv
      rw [if_neg (List.cons_ne_nil b t), if_neg hallf]

theorem parseLen_bad (ds : List Nat) (i : Nat) (hi : i < ds.length)
    (hbad : ¬(48 ≤ ds.get ⟨i, hi⟩ ∧ ds.get ⟨i, hi⟩ ≤ 57))
    (hplus : ¬(i = 0 ∧ ds.get ⟨i, hi⟩ = 43)) :
    parseLen ds = none := by
  unfold parseLen
  split
  · exact parseUsize_bad ds i hi hbad hplus
  · rfl

/-! ## Facts about the length and copy loops -/

/-- Add `k` consumed bytes to a `LenOut`. -/
def LenOut.addC (k : Nat) : LenOut → LenOut
  | .finished c a v => .finished (c + k) a v
  | r => r

theorem LenOut.addC_zero (r : LenOut) : r.addC 0 = r := by
  cases r <;> rfl

theorem LenOut.bump_addC (r : LenOut) (k : Nat) :
    (r.addC k).bump = r.addC (k + 1) := by
  cases r <;> simp [LenOut.addC, LenOut.bump, Nat.add_assoc]

/-- Scanning a colon-free digit region terminated by `:` parses the
accumulated bytes. -/
theorem lenLoop_digits (ds : List Nat) (rest acc : List Nat)
    (h : ∀ b ∈ ds, b ≠ 58) :
    lenLoop (ds ++ 58 :: rest) true acc =
      match parseLen (acc ++ ds) with
      | some n => .finished (ds.length + 1) (acc ++ ds) n
      | none => .errParse := by
  induction ds generalizing acc with
  | nil =>
    simp only [List.nil_append, List.append_nil, lenLoop, if_pos rfl]
    cases parseLen acc <;> simp
  | cons d ds ih =>
    have hd : d ≠ 58 := h d (List.mem_cons_self d ds)
    simp only [List.cons_append, lenLoop, List.append_eq]
    rw [if_neg hd]
    rw [ih (acc ++ [d]) (fun b hb => h b (List.mem_cons_of_mem d hb))]
    have hacc : (acc ++ [d]) ++ ds = acc ++ d :: ds := by simp
    rw [hacc]
    cases parseLen (acc ++ d :: ds) <;> simp [LenOut.bump]

/-- The length loop over `xs ++ ys` either settles inside `xs` or exhausts
`xs` and continues over `ys` with the carried flag and accumulator. -/
theorem lenLoop_append (xs ys : List Nat) (bt : Bool) (acc : List Nat) :
    lenLoop (xs ++ ys) bt acc =
      match lenLoop xs bt acc with
      | .exhausted bt2 acc2 => (lenLoop ys bt2 acc2).addC xs.length
      | r => r := by
  induction xs generalizing bt acc with
  | nil =>
    simp only [List.nil_append, lenLoop, List.length_nil]
    rw [LenOut.addC_zero]
  | cons x xs ih =>
    cases bt with
    | false =>
      by_cases hx : x = 58
      · subst hx
        simp only [List.cons_append, lenLoop, if_pos rfl, if_true,
          List.append_eq]
        rw [ih true acc]
        cases h : lenLoop xs true acc with
        | errColon b => simp [LenOut.bump]
        | errParse => simp [LenOut.bump]
        | finished c a v => simp [LenOut.bump]
        | exhausted b2 a2 =>
          rw [LenOut.bump_addC]
          simp [LenOut.bump]
      · simp only [List.cons_append, lenLoop]
        rw [if_neg hx, if_neg hx]
    | true =>
      by_cases hx : x = 58
      · subst hx
        simp only [List.cons_append, lenLoop, if_pos rfl]
        cases parseLen acc <;> simp
      · simp only [List.cons_append, lenLoop, List.append_eq]
        rw [if_neg hx, if_neg hx]
        rw [ih true (acc ++ [x])]
        cases h : lenLoop xs true (acc ++ [x]) with
        | errColon b => simp [LenOut.bump]
        | errParse => simp [LenOut.bump]
        | finished c a v => simp [LenOut.bump]
        | exhausted b2 a2 =>
          rw [LenOut.bump_addC]
          simp [LenOut.bump]

theorem lenLoop_consumed_le (xs : List Nat) :
    ∀ (bt : Bool) (acc : List Nat) (c : Nat) (a : List Nat) (v : Nat),
      lenLoop xs bt acc = .finished c a v → c ≤ xs.length := by
  induction xs with
  | nil =>
    intro bt acc c a v h
    simp [lenLoop] at h
  | cons x xs ih =>
    intro bt acc c a v h
    cases bt with
    | false =>
      by_cases hx : x = 58
      · subst hx
        simp only [lenLoop, if_pos rfl] at h
        cases h2 : lenLoop xs true acc <;> rw [h2] at h <;>
          simp [LenOut.bump] at h
        obtain ⟨hc, -, -⟩ := h
        have := ih true acc _ _ _ h2
        simp only [List.length_cons]
        omega
      · simp only [lenLoop] at h
        rw [if_neg hx] at h
        simp at h
    | true =>
      by_cases hx : x = 58
      · subst hx
        simp only [lenLoop, if_pos rfl] at h
        rcases hp : parseLen acc with - | n <;> rw [hp] at h <;> simp at h
        obtain ⟨hc, -, -⟩ := h
        simp only [List.length_cons]
        omega
      · simp only [lenLoop] at h
        rw [if_neg hx] at h
        cases h2 : lenLoop xs true (acc ++ [x]) <;> rw [h2] at h <;>
          simp [LenOut.bump] at h
        obtain ⟨hc, -, -⟩ := h
        have := ih true (acc ++ [x]) _ _ _ h2
        simp only [List.length_cons]
        omega

/-- The copy loop consumes exactly the announced remainder when it is all
available. -/
theorem copyLoop_spec (body : List Nat) :
    ∀ (rest out : List Nat) (tgt : Nat), out.length + body.length = tgt →
      copyLoop (body ++ rest) out tgt = (body.length, out ++ body) := by
  induction body with
  | nil =>
    intro rest out tgt h
    simp only [List.length_nil, Nat.add_zero] at h
    simp only [List.nil_append, List.append_nil, List.length_nil]
    cases rest with
    | nil => rfl
    | cons b r =>
      simp only [copyLoop]
      rw [if_neg (by omega)]
  | cons b body ih =>
    intro rest out tgt h
    simp only [List.length_cons] at h
    simp only [List.cons_append, copyLoop, List.append_eq]
    rw [if_pos (by omega)]
    rw [ih rest (out ++ [b]) tgt (by simp; omega)]
    simp

/-- If the copy loop reached its target inside `xs`, appended bytes change
nothing. -/
theorem copyLoop_append_done (xs : List Nat) :
    ∀ (ys out : List Nat) (tgt : Nat), tgt ≤ (copyLoop xs out tgt).2.length →
      copyLoop (xs ++ ys) out tgt = copyLoop xs out tgt := by
  induction xs with
  | nil =>
    intro ys out tgt h
    simp only [copyLoop] at h
    simp only [List.nil_append]
    cases ys with
    | nil => rfl
    | cons y r =>
      simp only [copyLoop]
      rw [if_neg (by omega)]
  | cons x xs ih =>
    intro ys out tgt h
    by_cases hlt : out.length < tgt
    · have h2 : tgt ≤ (copyLoop xs (out ++ [x]) tgt).2.length := by
        simp only [copyLoop, if_pos hlt] at h
        exact h
      simp only [List.cons_append, copyLoop, if_pos hlt, List.append_eq]
      rw [ih ys (out ++ [x]) tgt h2]
    · simp only [List.cons_append, copyLoop, if_neg hlt]

/-- If the copy loop ran out of bytes inside `xs`, it continues over the
appended bytes with the grown output. -/
theorem copyLoop_append_more (xs : List Nat) :
    ∀ (ys out : List Nat) (tgt : Nat), (copyLoop xs out tgt).2.length < tgt →
      copyLoop (xs ++ ys) out tgt =
        ((copyLoop ys (copyLoop xs out tgt).2 tgt).1 + xs.length,
         (copyLoop ys (copyLoop xs out tgt).2 tgt).2) := by
  induction xs with
  | nil =>
    intro ys out tgt h
    simp only [copyLoop, List.nil_append, List.length_nil, Nat.add_zero]
  | cons x xs ih =>
    intro ys out tgt h
    have hlt : out.length < tgt := by
      by_contra hc
      simp only [copyLoop, if_neg hc] at h
      exact hc h
    have h2 : (copyLoop xs (out ++ [x]) tgt).2.length < tgt := by
      simp only [copyLoop, if_pos hlt] at h
      exact h
    simp only [List.cons_append, copyLoop, if_pos hlt, List.append_eq]
    rw [ih ys (out ++ [x]) tgt h2]
    simp [Nat.add_assoc]

theorem copyLoop_consumed_le (xs : List Nat) :
    ∀ (out : List Nat) (tgt : Nat), (copyLoop xs out tgt).1 ≤ xs.length := by
  induction xs with
  | nil =>
    intro out tgt
    simp [copyLoop]
  | cons x xs ih =>
    intro out tgt
    by_cases hlt : out.length < tgt
    · simp only [copyLoop, if_pos hlt]
      have := ih (out ++ [x]) tgt
      simp only [List.length_cons]
      omega
    · simp [copyLoop, if_neg hlt]

/-! ## Prefix-shift and buffer-extension simulation for the state machine -/

/-- The states whose arms read only the unread suffix `buf.drop ptr`:
every state except `Start` and `ReadOp` (the `ReadOp` arm inspects the
absolute cursor — `ptr == 0` — and assigns absolute cursor positions). -/
def LinState (s : PState) : Prop :=
  s = .readKeyLen ∨ s = .readKey ∨ s = .readEcho ∨ s = .readValueLen ∨
    s = .readValue ∨ s = .done

/-- A machine state in a linear state, with no pending residual bytes and
the cursor inside the buffer. -/
def Clean (m : MState) : Prop :=
  LinState m.state ∧ m.residual = [] ∧ m.ptr ≤ m.buf.length

/-- Prepend already-consumed bytes in front of the cursor. -/
def pshift (pre : List Nat) (m : MState) : MState :=
  { m with buf := pre ++ m.buf, ptr := pre.length + m.ptr }

/-- Prefix-shift an arm outcome. -/
def ArmOut.pshiftO (pre : List Nat) : ArmOut → ArmOut
  | .ret r s => .ret r ⟨pre ++ s.buf, s.fresh⟩
  | .needRead m => .needRead (pshift pre m)
  | .goto m => .goto (pshift pre m)

/-- In a linear state the arm commutes with prefix-shifting: its behaviour
depends only on `buf.drop ptr` and the scratch fields. -/
theorem arm_pshift (m : MState) (pre : List Nat) (h : LinState m.state) :
    arm (pshift pre m) = (arm m).pshiftO pre := by
  obtain ⟨st, op, bt, ptr, buf, klb, kl, k, ec, vlb, vl, v, res, f⟩ := m
  have hdrop : (pre ++ buf).drop (pre.length + ptr) = buf.drop ptr :=
    List.drop_append ptr
  rcases h with h | h | h | h | h | h <;> subst h
  · -- ReadKeyLen
    simp only [arm, pshift]
    rw [hdrop]
    cases hl : lenLoop (buf.drop ptr) bt klb <;>
      simp [ArmOut.pshiftO, pshift, Nat.add_assoc, List.length_append]
  · -- ReadKey
    simp only [arm, pshift]
    rw [hdrop]
    by_cases hc : (copyLoop (buf.drop ptr) k kl).2.length ≥ kl <;>
      simp [hc, ArmOut.pshiftO, pshift, Nat.add_assoc]
  · -- ReadEcho
    simp only [arm, pshift]
    rw [hdrop]
    by_cases hc : (copyLoop (buf.drop ptr) ec kl).2.length ≥ kl <;>
      simp [hc, ArmOut.pshiftO, pshift, Nat.add_assoc]
  · -- ReadValueLen
    simp only [arm, pshift]
    rw [hdrop]
    cases hl : lenLoop (buf.drop ptr) bt vlb <;>
      simp [ArmOut.pshiftO, pshift, Nat.add_assoc, List.length_append]
  · -- ReadValue
    simp only [arm, pshift]
    rw [hdrop]
    by_cases hc : (copyLoop (buf.drop ptr) v vl).2.length ≥ vl <;>
      simp [hc, ArmOut.pshiftO, pshift, Nat.add_assoc]
  · -- Done
    by_cases hu : utf8Valid k
    · cases op <;> simp [arm, pshift, hu, ArmOut.pshiftO]
    · simp [arm, pshift, hu, ArmOut.pshiftO]

/-- Append not-yet-delivered bytes after the end of the buffer. -/
def extBuf (b : List Nat) (m : MState) : MState := { m with buf := m.buf ++ b }

/-- Master simulation step: running an arm on a buffer extended by `b` is the
same as running the arm on the original buffer and, if it exhausted the
buffer, refilling with `b` and running the arm again (prefix-shifted by the
old buffer). -/
theorem arm_ext (m : MState) (b : List Nat) (h : Clean m) :
    arm (extBuf b m) =
      match arm m with
      | .ret r s => .ret r ⟨s.buf ++ b, s.fresh⟩
      | .goto m' => .goto (extBuf b m')
      | .needRead mr => (arm (refill mr b)).pshiftO m.buf := by
  obtain ⟨hlin, hres, hptr⟩ := h
  obtain ⟨st, op, bt, ptr, buf, klb, kl, k, ec, vlb, vl, v, res, f⟩ := m
  simp only at hres hptr
  subst hres
  have hdrop : (buf ++ b).drop ptr = buf.drop ptr ++ b :=
    List.drop_append_of_le_length hptr
  have hlendrop : (buf.drop ptr).length = buf.length - ptr :=
    List.length_drop ptr buf
  rcases hlin with h | h | h | h | h | h <;> subst h
  · -- ReadKeyLen
    simp only [arm, extBuf]
    rw [hdrop, lenLoop_append]
    cases hl : lenLoop (buf.drop ptr) bt klb with
    | errColon c => simp [LenOut.addC, ArmOut.pshiftO]
    | errParse => simp [LenOut.addC, ArmOut.pshiftO]
    | finished c a n => simp [LenOut.addC, ArmOut.pshiftO, extBuf]
    | exhausted bt2 a2 =>
      simp only [refill, List.nil_append]
      cases h2 : lenLoop b bt2 a2 with
      | errColon c => simp [arm, LenOut.addC, ArmOut.pshiftO, h2]
      | errParse => simp [arm, LenOut.addC, ArmOut.pshiftO, h2]
      | finished c a n =>
        simp [arm, LenOut.addC, ArmOut.pshiftO, h2, pshift]
        omega
      | exhausted bt3 a3 =>
        simp [arm, LenOut.addC, ArmOut.pshiftO, h2, pshift]
  · -- ReadKey
    simp only [arm, extBuf]
    rw [hdrop]
    by_cases hc : (copyLoop (buf.drop ptr) k kl).2.length ≥ kl
    · rw [copyLoop_append_done _ _ _ _ hc]
      simp [hc, ArmOut.pshiftO, extBuf]
    · rw [copyLoop_append_more _ _ _ _ (Nat.not_le.mp hc)]
      simp only [if_neg hc]
      simp only [refill, List.nil_append]
      by_cases h2 :
          (copyLoop b (copyLoop (buf.drop ptr) k kl).2 kl).2.length ≥ kl
      · simp [arm, h2, ArmOut.pshiftO, pshift]
        omega
      · simp [arm, h2, ArmOut.pshiftO, pshift]
        omega
  · -- ReadEcho
    simp only [arm, extBuf]
    rw [hdrop]
    by_cases hc : (copyLoop (buf.drop ptr) ec kl).2.length ≥ kl
    · rw [copyLoop_append_done _ _ _ _ hc]
      simp [hc, ArmOut.pshiftO, extBuf]
    · rw [copyLoop_append_more _ _ _ _ (Nat.not_le.mp hc)]
      simp only [if_neg hc]
      simp only [refill, List.nil_append]
      by_cases h2 :
          (copyLoop b (copyLoop (buf.drop ptr) ec kl).2 kl).2.length ≥ kl
      · simp [arm, h2, ArmOut.pshiftO, pshift]
        omega
      · simp [arm, h2, ArmOut.pshiftO, pshift]
        omega
  · -- ReadValueLen
    simp only [arm, extBuf]
    rw [hdrop, lenLoop_append]
    cases hl : lenLoop (buf.drop ptr) bt vlb with
    | errColon c => simp [LenOut.addC, ArmOut.pshiftO]
    | errParse => simp [LenOut.addC, ArmOut.pshiftO]
    | finished c a n => simp [LenOut.addC, ArmOut.pshiftO, extBuf]
    | exhausted bt2 a2 =>
      simp only [refill, List.nil_append]
      cases h2 : lenLoop b bt2 a2 with
      | errColon c => simp [arm, LenOut.addC, ArmOut.pshiftO, h2]
      | errParse => simp [arm, LenOut.addC, ArmOut.pshiftO, h2]
      | finished c a n =>
        simp [arm, LenOut.addC, ArmOut.pshiftO, h2, pshift]
        omega
      | exhausted bt3 a3 =>
        simp [arm, LenOut.addC, ArmOut.pshiftO, h2, pshift]
  · -- ReadValue
    simp only [arm, extBuf]
    rw [hdrop]
    by_cases hc : (copyLoop (buf.drop ptr) v vl).2.length ≥ vl
    · rw [copyLoop_append_done _ _ _ _ hc]
      simp [hc, ArmOut.pshiftO, extBuf]
    · rw [copyLoop_append_more _ _ _ _ (Nat.not_le.mp hc)]
      simp only [if_neg hc]
      simp only [refill, List.nil_append]
      by_cases h2 :
          (copyLoop b (copyLoop (buf.drop ptr) v vl).2 vl).2.length ≥ vl
      · simp [arm, h2, ArmOut.pshiftO, pshift]
        omega
      · simp [arm, h2, ArmOut.pshiftO, pshift]
        omega
  · -- Done
    by_cases hu : utf8Valid k
    · cases op <;> simp [arm, extBuf, hu, ArmOut.pshiftO]
    · simp [arm, extBuf, hu, ArmOut.pshiftO]

theorem rank_le_six (s : PState) : rank s ≤ 6 := by
  cases s <;> simp [rank]

/-- Every `continue 'state_loop` with `needs_read == false` moves to a
strictly later state. -/
theorem arm_goto_rank (m m' : MState) (hg : arm m = .goto m') :
    rank m.state < rank m'.state := by
  obtain ⟨st, op, bt, ptr, buf, klb, kl, k, ec, vlb, vl, v, res, f⟩ := m
  cases st <;> simp only [arm] at hg
  case start =>
    split at hg
    · rw [ArmOut.goto.injEq] at hg
      subst hg
      simp [rank]
    · split at hg
      · rw [ArmOut.goto.injEq] at hg
        subst hg
        simp [rank]
      · simp at hg
  case readOp =>
    split at hg
    · split at hg <;> simp at hg
    · split at hg
      · rw [ArmOut.goto.injEq] at hg
        subst hg
        simp [rank]
      · split at hg
        · rw [ArmOut.goto.injEq] at hg
          subst hg
          simp [rank]
        · split at hg
          · rw [ArmOut.goto.injEq] at hg
            subst hg
            simp [rank]
          · simp at hg
  case readKeyLen =>
    split at hg <;> try simp at hg
    subst hg
    cases op <;> simp [rank]
  case readKey =>
    split at hg <;> try simp at hg
    subst hg
    cases op <;> simp [rank]
  case readEcho =>
    split at hg <;> try simp at hg
    subst hg
    simp [rank]
  case readValueLen =>
    split at hg <;> try simp at hg
    subst hg
    simp [rank]
  case readValue =>
    split at hg <;> try simp at hg
    subst hg
    simp [rank]
  case done =>
    split at hg
    · split at hg <;> simp at hg
    · simp at hg

/-- `goto` never leaves the linear states and preserves cleanliness, the
buffer and the freshness flag. -/
theorem arm_goto_clean (m m' : MState) (h : Clean m) (hg : arm m = .goto m') :
    Clean m' ∧ m'.buf = m.buf ∧ m'.fresh = m.fresh := by
  obtain ⟨hlin, hres, hptr⟩ := h
  obtain ⟨st, op, bt, ptr, buf, klb, kl, k, ec, vlb, vl, v, res, f⟩ := m
  simp only at hres hptr
  subst hres
  rcases hlin with h | h | h | h | h | h <;> subst h <;>
    simp only [arm] at hg
  · -- ReadKeyLen
    cases hl : lenLoop (List.drop ptr buf) bt klb <;> rw [hl] at hg <;>
      simp at hg
    subst hg
    have hc := lenLoop_consumed_le _ _ _ _ _ _ hl
    simp only [List.length_drop] at hc
    refine ⟨⟨?_, rfl, ?_⟩, rfl, rfl⟩
    · cases op <;> simp [LinState]
    · simp only []
      omega
  · -- ReadKey
    by_cases hc : (copyLoop (List.drop ptr buf) k kl).2.length ≥ kl
    · rw [if_pos hc] at hg
      simp at hg
      subst hg
      have hle := copyLoop_consumed_le (List.drop ptr buf) k kl
      simp only [List.length_drop] at hle
      refine ⟨⟨?_, rfl, ?_⟩, rfl, rfl⟩
      · cases op <;> simp [LinState]
      · simp only []
        omega
    · rw [if_neg hc] at hg
      simp at hg
  · -- ReadEcho
    by_cases hc : (copyLoop (List.drop ptr buf) ec kl).2.length ≥ kl
    · rw [if_pos hc] at hg
      simp at hg
      subst hg
      have hle := copyLoop_consumed_le (List.drop ptr buf) ec kl
      simp only [List.length_drop] at hle
      refine ⟨⟨?_, rfl, ?_⟩, rfl, rfl⟩
      · simp [LinState]
      · simp only []
        omega
    · rw [if_neg hc] at hg
      simp at hg
  · -- ReadValueLen
    cases hl : lenLoop (List.drop ptr buf) bt vlb <;> rw [hl] at hg <;>
      simp at hg
    subst hg
    have hc := lenLoop_consumed_le _ _ _ _ _ _ hl
    simp only [List.length_drop] at hc
    refine ⟨⟨?_, rfl, ?_⟩, rfl, rfl⟩
    · simp [LinState]
    · simp only []
      omega
  · -- ReadValue
    by_cases hc : (copyLoop (List.drop ptr buf) v vl).2.length ≥ vl
    · rw [if_pos hc] at hg
      simp at hg
      subst hg
      have hle := copyLoop_consumed_le (List.drop ptr buf) v vl
      simp only [List.length_drop] at hle
      refine ⟨⟨?_, rfl, ?_⟩, rfl, rfl⟩
      · simp [LinState]
      · simp only []
        omega
    · rw [if_neg hc] at hg
      simp at hg
  · -- Done
    by_cases hu : utf8Valid k
    · cases op <;> simp [hu] at hg
    · simp [hu] at hg

/-- In a linear state, `needs_read` keeps the state, the buffer, the empty
residual and the freshness flag. -/
theorem arm_needRead_facts (m mr : MState) (h : Clean m)
    (hn : arm m = .needRead mr) :
    mr.state = m.state ∧ mr.buf = m.buf ∧ mr.residual = [] ∧
      mr.fresh = m.fresh := by
  obtain ⟨hlin, hres, hptr⟩ := h
  obtain ⟨st, op, bt, ptr, buf, klb, kl, k, ec, vlb, vl, v, res, f⟩ := m
  simp only at hres hptr
  subst hres
  rcases hlin with h | h | h | h | h | h <;> subst h <;>
    simp only [arm] at hn
  · cases hl : lenLoop (List.drop ptr buf) bt klb <;> rw [hl] at hn <;>
      simp at hn
    subst hn
    exact ⟨rfl, rfl, rfl, rfl⟩
  · by_cases hc : (copyLoop (List.drop ptr buf) k kl).2.length ≥ kl
    · rw [if_pos hc] at hn
      simp at hn
    · rw [if_neg hc] at hn
      simp at hn
      subst hn
      exact ⟨rfl, rfl, rfl, rfl⟩
  · by_cases hc : (copyLoop (List.drop ptr buf) ec kl).2.length ≥ kl
    · rw [if_pos hc] at hn
      simp at hn
    · rw [if_neg hc] at hn
      simp at hn
      subst hn
      exact ⟨rfl, rfl, rfl, rfl⟩
  · cases hl : lenLoop (List.drop ptr buf) bt vlb <;> rw [hl] at hn <;>
      simp at hn
    subst hn
    exact ⟨rfl, rfl, rfl, rfl⟩
  · by_cases hc : (copyLoop (List.drop ptr buf) v vl).2.length ≥ vl
    · rw [if_pos hc] at hn
      simp at hn
    · rw [if_neg hc] at hn
      simp at hn
      subst hn
      exact ⟨rfl, rfl, rfl, rfl⟩
  · by_cases hu : utf8Valid k
    · cases op <;> simp [hu] at hn
    · simp [hu] at hn

/-- No arm ever modifies `self.buf` (only the refill sequence does). -/
theorem arm_goto_buf (m m' : MState) (hg : arm m = .goto m') :
    m'.buf = m.buf := by
  obtain ⟨st, op, bt, ptr, buf, klb, kl, k, ec, vlb, vl, v, res, f⟩ := m
  cases st <;> simp only [arm] at hg <;> repeat' split at hg
  all_goals try simp at hg
  all_goals
    subst hg
    rfl

theorem arm_needRead_buf (m mr : MState) (hn : arm m = .needRead mr) :
    mr.buf = m.buf := by
  obtain ⟨st, op, bt, ptr, buf, klb, kl, k, ec, vlb, vl, v, res, f⟩ := m
  cases st <;> simp only [arm] at hn <;> repeat' split at hn
  all_goals try simp at hn
  all_goals
    subst hn
    rfl

theorem arm_ret_buf (m : MState) (r : ProtoResult) (s : Session)
    (hr : arm m = .ret r s) : s.buf = m.buf := by
  obtain ⟨st, op, bt, ptr, buf, klb, kl, k, ec, vlb, vl, v, res, f⟩ := m
  cases st <;> simp only [arm] at hr <;> repeat' split at hr
  all_goals try simp at hr
  all_goals
    obtain ⟨-, hr2⟩ := hr
    subst hr2
    rfl

/-- Run `k + 1` arms when `k` already suffice: the extra step is idle. -/
theorem driveAux_stable (k : Nat) :
    ∀ m : MState, 6 ≤ k + rank m.state → driveAux (k + 1) m = driveAux k m := by
  induction k with
  | zero =>
    intro m hk
    simp only [driveAux]
    cases h : arm m with
    | ret r s => rfl
    | needRead mr => rfl
    | goto m' =>
      have h1 := arm_goto_rank m m' h
      have h2 := rank_le_six m'.state
      omega
  | succ k ih =>
    intro m hk
    show driveAux (k + 2) m = driveAux (k + 1) m
    simp only [driveAux]
    cases h : arm m with
    | ret r s => rfl
    | needRead mr => rfl
    | goto m' =>
      apply ih
      have := arm_goto_rank m m' h
      omega

/-- `drive` absorbs a leading `goto`. -/
theorem drive_goto (m m' : MState) (h : arm m = .goto m') :
    drive m = drive m' := by
  have h1 : drive m = driveAux 6 m' := by
    simp [drive, driveAux, h]
  rw [h1, drive]
  exact (driveAux_stable 6 m' (by omega)).symm

theorem drive_of_ret (m : MState) (r : ProtoResult) (s : Session)
    (h : arm m = .ret r s) : drive m = .ret r s := by
  simp [drive, driveAux, h]

theorem drive_of_needRead (m mr : MState) (h : arm m = .needRead mr) :
    drive m = .needRead mr := by
  simp [drive, driveAux, h]

theorem driveAux_no_goto (k : Nat) :
    ∀ m m' : MState, 6 < k + rank m.state → driveAux k m ≠ .goto m' := by
  induction k with
  | zero =>
    intro m m' hk
    have := rank_le_six m.state
    omega
  | succ k ih =>
    intro m m' hk
    simp only [driveAux]
    cases h : arm m with
    | ret r s => simp
    | needRead mr => simp
    | goto m2 =>
      apply ih
      have := arm_goto_rank m m2 h
      omega

/-- `drive` never ends in `goto`: seven arms always reach a return or a
read. -/
theorem drive_no_goto (m m' : MState) : drive m ≠ .goto m' := by
  have := rank_le_six m.state
  exact driveAux_no_goto 7 m m' (by omega)

theorem driveAux_ret_buf (k : Nat) :
    ∀ (m : MState) (r : ProtoResult) (s : Session),
      driveAux k m = .ret r s → s.buf = m.buf := by
  induction k with
  | zero =>
    intro m r s h
    exact arm_ret_buf m r s h
  | succ k ih =>
    intro m r s h
    simp only [driveAux] at h
    cases h2 : arm m with
    | ret r2 s2 =>
      rw [h2] at h
      cases h
      exact arm_ret_buf m _ _ h2
    | needRead mr =>
      rw [h2] at h
      simp at h
    | goto m2 =>
      rw [h2] at h
      rw [ih m2 r s h, arm_goto_buf m m2 h2]

/-- The session buffer returned by a completed `drive` is the current
`self.buf`. -/
theorem drive_ret_buf (m : MState) (r : ProtoResult) (s : Session)
    (h : drive m = .ret r s) : s.buf = m.buf :=
  driveAux_ret_buf 7 m r s h

theorem drive_pshift_aux (n : Nat) :
    ∀ m : MState, 6 - rank m.state ≤ n → Clean m →
      ∀ pre : List Nat, drive (pshift pre m) = (drive m).pshiftO pre := by
  induction n with
  | zero =>
    intro m hn hcl pre
    cases h : arm m with
    | ret r s =>
      rw [drive_of_ret m r s h]
      have h2 := arm_pshift m pre hcl.1
      rw [h] at h2
      exact drive_of_ret _ _ _ h2
    | needRead mr =>
      rw [drive_of_needRead m mr h]
      have h2 := arm_pshift m pre hcl.1
      rw [h] at h2
      exact drive_of_needRead _ _ h2
    | goto m' =>
      have h1 := arm_goto_rank m m' h
      have h2 := rank_le_six m'.state
      omega
  | succ n ih =>
    intro m hn hcl pre
    cases h : arm m with
    | ret r s =>
      rw [drive_of_ret m r s h]
      have h2 := arm_pshift m pre hcl.1
      rw [h] at h2
      exact drive_of_ret _ _ _ h2
    | needRead mr =>
      rw [drive_of_needRead m mr h]
      have h2 := arm_pshift m pre hcl.1
      rw [h] at h2
      exact drive_of_needRead _ _ h2
    | goto m' =>
      obtain ⟨hcl', hbuf, -⟩ := arm_goto_clean m m' hcl h
      have h2 := arm_pshift m pre hcl.1
      rw [h] at h2
      rw [drive_goto m m' h, drive_goto _ _ h2]
      have hrk := arm_goto_rank m m' h
      have hrk6 := rank_le_six m'.state
      exact ih m' (by omega) hcl' pre

/-- In a clean linear state, `drive` commutes with prefix-shifting. -/
theorem drive_pshift (m : MState) (hcl : Clean m) (pre : List Nat) :
    drive (pshift pre m) = (drive m).pshiftO pre :=
  drive_pshift_aux 6 m (by omega) hcl pre

theorem drive_ext_aux (n : Nat) :
    ∀ m : MState, 6 - rank m.state ≤ n → Clean m → ∀ b : List Nat,
      drive (extBuf b m) =
        match drive m with
        | .ret r s => .ret r ⟨s.buf ++ b, s.fresh⟩
        | .goto mr => .goto (extBuf b mr)
        | .needRead mr => (drive (refill mr b)).pshiftO m.buf := by
  induction n with
  | zero =>
    intro m hn hcl b
    cases h : arm m with
    | ret r s =>
      rw [drive_of_ret m r s h]
      have h2 := arm_ext m b hcl
      rw [h] at h2
      exact drive_of_ret _ _ _ h2
    | needRead mr =>
      rw [drive_of_needRead m mr h]
      show drive (extBuf b m) = (drive (refill mr b)).pshiftO m.buf
      have h2 := arm_ext m b hcl
      rw [h] at h2
      have h2a : arm (extBuf b m) = (arm (refill mr b)).pshiftO m.buf := h2
      cases h3 : arm (refill mr b) with
      | ret r2 s2 =>
        rw [h3] at h2a
        rw [drive_of_ret _ _ _ h3]
        exact drive_of_ret _ _ _ h2a
      | needRead m2 =>
        rw [h3] at h2a
        rw [drive_of_needRead _ _ h3]
        exact drive_of_needRead _ _ h2a
      | goto m2 =>
        rw [h3] at h2a
        have h2b : arm (extBuf b m) = .goto (pshift m.buf m2) := h2a
        have hclr : Clean (refill mr b) := by
          obtain ⟨hst, hbuf, hres, -⟩ := arm_needRead_facts m mr hcl h
          refine ⟨?_, rfl, by simp [refill]⟩
          simp only [refill]
          rw [hst]
          exact hcl.1
        obtain ⟨hcl2, hbuf2, -⟩ := arm_goto_clean _ m2 hclr h3
        rw [drive_goto _ _ h2b, drive_goto _ _ h3]
        exact drive_pshift m2 hcl2 m.buf
    | goto m' =>
      have h1 := arm_goto_rank m m' h
      have h2 := rank_le_six m'.state
      omega
  | succ n ih =>
    intro m hn hcl b
    cases h : arm m with
    | ret r s =>
      rw [drive_of_ret m r s h]
      have h2 := arm_ext m b hcl
      rw [h] at h2
      exact drive_of_ret _ _ _ h2
    | needRead mr =>
      rw [drive_of_needRead m mr h]
      show drive (extBuf b m) = (drive (refill mr b)).pshiftO m.buf
      have h2 := arm_ext m b hcl
      rw [h] at h2
      have h2a : arm (extBuf b m) = (arm (refill mr b)).pshiftO m.buf := h2
      cases h3 : arm (refill mr b) with
      | ret r2 s2 =>
        rw [h3] at h2a
        rw [drive_of_ret _ _ _ h3]
        exact drive_of_ret _ _ _ h2a
      | needRead m2 =>
        rw [h3] at h2a
        rw [drive_of_needRead _ _ h3]
        exact drive_of_needRead _ _ h2a
      | goto m2 =>
        rw [h3] at h2a
        have h2b : arm (extBuf b m) = .goto (pshift m.buf m2) := h2a
        have hclr : Clean (refill mr b) := by
          obtain ⟨hst, hbuf, hres, -⟩ := arm_needRead_facts m mr hcl h
          refine ⟨?_, rfl, by simp [refill]⟩
          simp only [refill]
          rw [hst]
          exact hcl.1
        obtain ⟨hcl2, hbuf2, -⟩ := arm_goto_clean _ m2 hclr h3
        rw [drive_goto _ _ h2b, drive_goto _ _ h3]
        exact drive_pshift m2 hcl2 m.buf
    | goto m' =>
      obtain ⟨hcl', hbuf, -⟩ := arm_goto_clean m m' hcl h
      have h2 := arm_ext m b hcl
      rw [h] at h2
      rw [drive_goto _ _ h, drive_goto _ _ h2]
      have hrk := arm_goto_rank m m' h
      have hrk6 := rank_le_six m'.state
      rw [ih m' (by omega) hcl' b, hbuf]

/-- In a clean linear state: extending the buffer by `b` behaves like
refilling with `b` at the next read. -/
theorem drive_ext (m : MState) (hcl : Clean m) (b : List Nat) :
    drive (extBuf b m) =
      match drive m with
      | .ret r s => .ret r ⟨s.buf ++ b, s.fresh⟩
      | .goto mr => .goto (extBuf b mr)
      | .needRead mr => (drive (refill mr b)).pshiftO m.buf :=
  drive_ext_aux 6 m (by omega) hcl b

/-- The refill overwrites buffer and cursor, so a prefix shift beforehand is
invisible. -/
theorem refill_pshift (pre : List Nat) (m : MState) (c : List Nat) :
    refill (pshift pre m) c = refill m c := by
  cases m
  simp [refill, pshift]

theorem runFrom_ret (m : MState) (evs : List Event) (r : ProtoResult)
    (s : Session) (h : drive m = .ret r s) : runFrom m evs = (r, s) := by
  cases evs with
  | nil => rw [runFrom, h]
  | cons ev rest => rw [runFrom, h]

theorem runFrom_needRead_nil (m mr : MState) (h : drive m = .needRead mr) :
    runFrom m [] = (.starved, ⟨[], mr.fresh⟩) := by
  rw [runFrom, h]

theorem runFrom_needRead_chunk (m mr : MState) (c : List Nat)
    (rest : List Event) (h : drive m = .needRead mr) :
    runFrom m (.chunk c :: rest) = runFrom (refill mr c) rest := by
  rw [runFrom, h]

theorem runFrom_needRead_eof (m mr : MState) (rest : List Event)
    (h : drive m = .needRead mr) :
    runFrom m (.eofEv :: rest) = (.ok .sysClose, ⟨[], mr.fresh⟩) := by
  rw [runFrom, h]

theorem runFrom_needRead_cancel (m mr : MState) (rest : List Event)
    (h : drive m = .needRead mr) :
    runFrom m (.cancelEv :: rest) = (.ok .cancelled, ⟨[], mr.fresh⟩) := by
  rw [runFrom, h]

theorem runFrom_needRead_ioErr (m mr : MState) (rest : List Event)
    (h : drive m = .needRead mr) :
    runFrom m (.ioErrEv :: rest) = (.err .ioError, ⟨[], mr.fresh⟩) := by
  rw [runFrom, h]

/-- Bytes already sitting at the end of the buffer of a clean state produce
the same result as the same bytes arriving as the next chunk. -/
theorem runFrom_ext (m : MState) (hcl : Clean m) (b : List Nat)
    (evs : List Event) :
    (runFrom (extBuf b m) evs).1 = (runFrom m (.chunk b :: evs)).1 := by
  cases h : drive m with
  | ret r s =>
    have he := drive_ext m hcl b
    rw [h] at he
    rw [runFrom_ret _ evs _ _ he, runFrom_ret _ _ _ _ h]
  | goto mr => exact absurd h (drive_no_goto m mr)
  | needRead mr =>
    have he := drive_ext m hcl b
    rw [h] at he
    have hea : drive (extBuf b m) = (drive (refill mr b)).pshiftO m.buf := he
    rw [runFrom_needRead_chunk m mr b evs h]
    cases h2 : drive (refill mr b) with
    | ret r2 s2 =>
      rw [h2] at hea
      rw [runFrom_ret _ _ _ _ hea, runFrom_ret _ _ _ _ h2]
    | goto m2 => exact absurd h2 (drive_no_goto _ m2)
    | needRead m2 =>
      rw [h2] at hea
      have heb : drive (extBuf b m) = .needRead (pshift m.buf m2) := hea
      cases evs with
      | nil =>
        rw [runFrom_needRead_nil _ _ heb, runFrom_needRead_nil _ _ h2]
      | cons ev rest =>
        cases ev with
        | chunk c =>
          rw [runFrom_needRead_chunk _ _ _ _ heb,
            runFrom_needRead_chunk _ _ _ _ h2, refill_pshift]
        | eofEv =>
          rw [runFrom_needRead_eof _ _ _ heb, runFrom_needRead_eof _ _ _ h2]
        | cancelEv =>
          rw [runFrom_needRead_cancel _ _ _ heb,
            runFrom_needRead_cancel _ _ _ h2]
        | ioErrEv =>
          rw [runFrom_needRead_ioErr _ _ _ heb,
            runFrom_needRead_ioErr _ _ _ h2]

theorem extBuf_extBuf (b1 b2 : List Nat) (m : MState) :
    extBuf b2 (extBuf b1 m) = extBuf (b1 ++ b2) m := by
  cases m
  simp [extBuf]

theorem extBuf_nil (m : MState) : extBuf [] m = m := by
  cases m
  simp [extBuf]

/-- Delivering a list of chunks to a clean state produces the same result as
having their concatenation already in the buffer. -/
theorem runFrom_chunks (cs : List (List Nat)) :
    ∀ m : MState, Clean m →
      (runFrom m (cs.map Event.chunk)).1 =
        (runFrom (extBuf cs.flatten m) []).1 := by
  induction cs with
  | nil =>
    intro m hcl
    rw [show List.flatten ([] : List (List Nat)) = [] from rfl, extBuf_nil]
    rfl
  | cons c cs ih =>
    intro m hcl
    rw [List.map_cons]
    rw [← runFrom_ext m hcl c (cs.map Event.chunk)]
    have hcl2 : Clean (extBuf c m) := by
      refine ⟨hcl.1, hcl.2.1, ?_⟩
      have := hcl.2.2
      simp only [extBuf, List.length_append]
      omega
    rw [ih (extBuf c m) hcl2, extBuf_extBuf]
    rw [show (c :: cs).flatten = c ++ cs.flatten by simp]

/-- With no events left, a non-starved run returns with the buffer intact. -/
theorem runFrom_nil_buf (m : MState) (h : (runFrom m []).1 ≠ .starved) :
    (runFrom m []).2.buf = m.buf := by
  cases hd : drive m with
  | ret r s =>
    rw [runFrom_ret _ _ _ _ hd]
    exact drive_ret_buf m r s hd
  | goto mr => exact absurd hd (drive_no_goto _ _)
  | needRead mr =>
    rw [runFrom_needRead_nil _ _ hd] at h
    simp at h

/-! ## Completeness of the parser on well-formed wires -/

/-- Drop exactly the length of a prefix. -/
theorem drop_pfx (a b : List Nat) (n : Nat) (h : n = a.length) :
    (a ++ b).drop n = b := by
  subst h
  exact List.drop_left a b

/-- The parser state on entry to `State::ReadKeyLen`, directly after a
fresh-session `ReadOp` match set the opcode `o` and the cursor `p`. -/
def entryState (o : POp) (p : Nat) (buf : List Nat) : MState :=
  { state := .readKeyLen, op := o, betweenColons := false, ptr := p,
    buf := buf, keyLenBuf := [], keyLen := 0, key := [], echo := [],
    valueLenBuf := [], valueLen := 0, value := [], residual := [],
    fresh := false }

theorem runFrom_of_arm_goto (m m' : MState) (evs : List Event)
    (h : arm m = .goto m') : runFrom m evs = runFrom m' evs := by
  have h2 := drive_goto m m' h
  cases evs with
  | nil => rw [runFrom, runFrom, h2]
  | cons ev rest => rw [runFrom, runFrom, h2]

/-- Completeness for `GET:<klen>:<key>..`: from the `ReadKeyLen` entry the
machine parses the announced key and finishes, validating it as UTF-8. -/
theorem runFrom_get (k suffix : List Nat) (hk : k.length < 2 ^ 64)
    (evs : List Event) :
    runFrom (entryState .get 3 (opGET ++ decDigits k.length ++ [58] ++ k ++
      suffix)) evs =
      (if utf8Valid k then .ok (.get k) else .err .keyUtf8,
       ⟨opGET ++ decDigits k.length ++ [58] ++ k ++ suffix, false⟩) := by
  set ds := decDigits k.length with hds
  set B := opGET ++ ds ++ [58] ++ k ++ suffix with hB
  have hlen : ds.length + 1 + 1 + 1 + 1 + 1 = ds.length + 5 := by omega
  have hd3 : B.drop 3 = 58 :: (ds ++ 58 :: (k ++ suffix)) := by
    rw [hB]
    simp [opGET, List.append_assoc]
  have hll : lenLoop (B.drop 3) false [] =
      .finished (ds.length + 1 + 1) ds k.length := by
    rw [hd3]
    simp only [lenLoop, if_pos rfl]
    rw [lenLoop_digits ds (k ++ suffix) [] (decDigits_no_colon k.length)]
    simp [parseLen_decDigits k.length hk, LenOut.bump]
  have h1 : arm (entryState .get 3 B) =
      .goto { entryState .get 3 B with
              state := .readKey
              ptr := 3 + (ds.length + 1 + 1)
              keyLenBuf := ds
              keyLen := k.length } := by
    simp only [arm, entryState, hll]
    simp [entryState]
  rw [runFrom_of_arm_goto _ _ _ h1]
  have hd5 : B.drop (3 + (ds.length + 1 + 1)) = k ++ suffix := by
    rw [hB, List.append_assoc (opGET ++ ds ++ [58]) k suffix]
    exact drop_pfx _ _ _ (by simp [opGET]; omega)
  have hcp : copyLoop (B.drop (3 + (ds.length + 1 + 1))) [] k.length =
      (k.length, k) := by
    rw [hd5]
    have h := copyLoop_spec k suffix [] k.length (by simp)
    simpa using h
  have h2 : arm { entryState .get 3 B with
      state := .readKey
      ptr := 3 + (ds.length + 1 + 1)
      keyLenBuf := ds
      keyLen := k.length } =
      .goto { entryState .get 3 B with
              state := .done
              ptr := 3 + (ds.length + 1 + 1) + k.length
              keyLenBuf := ds
              keyLen := k.length
              key := k } := by
    simp only [arm, entryState, hcp]
    simp [entryState]
  rw [runFrom_of_arm_goto _ _ _ h2]
  by_cases hu : utf8Valid k
  · have h3 : arm { entryState .get 3 B with
        state := .done
        ptr := 3 + (ds.length + 1 + 1) + k.length
        keyLenBuf := ds
        keyLen := k.length
        key := k } = .ret (.ok (.get k)) ⟨B, false⟩ := by
      simp [arm, entryState, hu]
    rw [runFrom_ret _ _ _ _ (drive_of_ret _ _ _ h3), if_pos hu]
  · have h3 : arm { entryState .get 3 B with
        state := .done
        ptr := 3 + (ds.length + 1 + 1) + k.length
        keyLenBuf := ds
        keyLen := k.length
        key := k } = .ret (.err .keyUtf8) ⟨B, false⟩ := by
      simp [arm, entryState, hu]
    rw [runFrom_ret _ _ _ _ (drive_of_ret _ _ _ h3), if_neg hu]

/-- Completeness for `ECHO:<mlen>:<msg>..`: the announced bytes are echoed
verbatim. -/
theorem runFrom_echo (msg suffix : List Nat) (hm : msg.length < 2 ^ 64)
    (evs : List Event) :
    runFrom (entryState .echo 4 (opECHO ++ [58] ++ decDigits msg.length ++
      [58] ++ msg ++ suffix)) evs =
      (.ok (.echo msg),
       ⟨opECHO ++ [58] ++ decDigits msg.length ++ [58] ++ msg ++ suffix,
        false⟩) := by
  set ds := decDigits msg.length with hds
  set B := opECHO ++ [58] ++ ds ++ [58] ++ msg ++ suffix with hB
  have hd4 : B.drop 4 = 58 :: (ds ++ 58 :: (msg ++ suffix)) := by
    rw [hB]
    simp [opECHO, List.append_assoc]
  have hll : lenLoop (B.drop 4) false [] =
      .finished (ds.length + 1 + 1) ds msg.length := by
    rw [hd4]
    simp only [lenLoop, if_pos rfl]
    rw [lenLoop_digits ds (msg ++ suffix) [] (decDigits_no_colon msg.length)]
    simp [parseLen_decDigits msg.length hm, LenOut.bump]
  have h1 : arm (entryState .echo 4 B) =
      .goto { entryState .echo 4 B with
              state := .readEcho
              ptr := 4 + (ds.length + 1 + 1)
              keyLenBuf := ds
              keyLen := msg.length } := by
    simp only [arm, entryState, hll]
    simp [entryState]
  rw [runFrom_of_arm_goto _ _ _ h1]
  have hd6 : B.drop (4 + (ds.length + 1 + 1)) = msg ++ suffix := by
    rw [hB, List.append_assoc (opECHO ++ [58] ++ ds ++ [58]) msg suffix]
    exact drop_pfx _ _ _ (by simp [opECHO]; omega)
  have hcp : copyLoop (B.drop (4 + (ds.length + 1 + 1))) [] msg.length =
      (msg.length, msg) := by
    rw [hd6]
    have h := copyLoop_spec msg suffix [] msg.length (by simp)
    simpa using h
  have h2 : arm { entryState .echo 4 B with
      state := .readEcho
      ptr := 4 + (ds.length + 1 + 1)
      keyLenBuf := ds
      keyLen := msg.length } =
      .goto { entryState .echo 4 B with
              state := .done
              ptr := 4 + (ds.length + 1 + 1) + msg.length
              keyLenBuf := ds
              keyLen := msg.length
              echo := msg } := by
    simp only [arm, entryState, hcp]
    simp [entryState]
  rw [runFrom_of_arm_goto _ _ _ h2]
  have h3 : arm { entryState .echo 4 B with
      state := .done
      ptr := 4 + (ds.length + 1 + 1) + msg.length
      keyLenBuf := ds
      keyLen := msg.length
      echo := msg } = .ret (.ok (.echo msg)) ⟨B, false⟩ := by
    simp [arm, entryState, utf8Valid]
  rw [runFrom_ret _ _ _ _ (drive_of_ret _ _ _ h3)]

/-- Completeness for `SET:<klen>:<key>:<vlen>:<value>..`. -/
theorem runFrom_set (k v suffix : List Nat) (hk : k.length < 2 ^ 64)
    (hv : v.length < 2 ^ 64) (evs : List Event) :
    runFrom (entryState .set 3 (opSET ++ decDigits k.length ++ [58] ++ k ++
      [58] ++ decDigits v.length ++ [58] ++ v ++ suffix)) evs =
      (if utf8Valid k then .ok (.set k v) else .err .keyUtf8,
       ⟨opSET ++ decDigits k.length ++ [58] ++ k ++ [58] ++
          decDigits v.length ++ [58] ++ v ++ suffix, false⟩) := by
  set ds1 := decDigits k.length with hds1
  set ds2 := decDigits v.length with hds2
  set B := opSET ++ ds1 ++ [58] ++ k ++ [58] ++ ds2 ++ [58] ++ v ++ suffix
    with hB
  have hd3 : B.drop 3 =
      58 :: (ds1 ++ 58 :: (k ++ ([58] ++ ds2 ++ [58] ++ v ++ suffix))) := by
    rw [hB]
    simp [opSET, List.append_assoc]
  have hll : lenLoop (B.drop 3) false [] =
      .finished (ds1.length + 1 + 1) ds1 k.length := by
    rw [hd3]
    simp only [lenLoop, if_pos rfl]
    rw [lenLoop_digits ds1 (k ++ ([58] ++ ds2 ++ [58] ++ v ++ suffix)) []
      (decDigits_no_colon k.length)]
    simp [parseLen_decDigits k.length hk, LenOut.bump]
  have h1 : arm (entryState .set 3 B) =
      .goto { entryState .set 3 B with
              state := .readKey
              ptr := 3 + (ds1.length + 1 + 1)
              keyLenBuf := ds1
              keyLen := k.length } := by
    simp only [arm, entryState, hll]
    simp [entryState]
  rw [runFrom_of_arm_goto _ _ _ h1]
  have hd5 : B.drop (3 + (ds1.length + 1 + 1)) =
      k ++ ([58] ++ ds2 ++ [58] ++ v ++ suffix) := by
    rw [hB]
    rw [show opSET ++ ds1 ++ [58] ++ k ++ [58] ++ ds2 ++ [58] ++ v ++
        suffix = (opSET ++ ds1 ++ [58]) ++
          (k ++ ([58] ++ ds2 ++ [58] ++ v ++ suffix)) by
      simp [List.append_assoc]]
    exact drop_pfx _ _ _ (by simp [opSET]; omega)
  have hcp : copyLoop (B.drop (3 + (ds1.length + 1 + 1))) [] k.length =
      (k.length, k) := by
    rw [hd5]
    have h := copyLoop_spec k ([58] ++ ds2 ++ [58] ++ v ++ suffix) []
      k.length (by simp)
    simpa using h
  have h2 : arm { entryState .set 3 B with
      state := .readKey
      ptr := 3 + (ds1.length + 1 + 1)
      keyLenBuf := ds1
      keyLen := k.length } =
      .goto { entryState .set 3 B with
              state := .readValueLen
              ptr := 3 + (ds1.length + 1 + 1) + k.length
              keyLenBuf := ds1
              keyLen := k.length
              key := k } := by
    simp only [arm, entryState, hcp]
    simp [entryState]
  rw [runFrom_of_arm_goto _ _ _ h2]
  have hd7 : B.drop (3 + (ds1.length + 1 + 1) + k.length) =
      58 :: (ds2 ++ 58 :: (v ++ suffix)) := by
    rw [hB]
    rw [show opSET ++ ds1 ++ [58] ++ k ++ [58] ++ ds2 ++ [58] ++ v ++
        suffix = (opSET ++ ds1 ++ [58] ++ k) ++
          (58 :: (ds2 ++ 58 :: (v ++ suffix))) by
      simp [List.append_assoc]]
    exact drop_pfx _ _ _ (by simp [opSET]; omega)
  have hll2 : lenLoop (B.drop (3 + (ds1.length + 1 + 1) + k.length))
      false [] = .finished (ds2.length + 1 + 1) ds2 v.length := by
    rw [hd7]
    simp only [lenLoop, if_pos rfl]
    rw [lenLoop_digits ds2 (v ++ suffix) [] (decDigits_no_colon v.length)]
    simp [parseLen_decDigits v.length hv, LenOut.bump]
  have h3 : arm { entryState .set 3 B with
      state := .readValueLen
      ptr := 3 + (ds1.length + 1 + 1) + k.length
      keyLenBuf := ds1
      keyLen := k.length
      key := k } =
      .goto { entryState .set 3 B with
              state := .readValue
              ptr := 3 + (ds1.length + 1 + 1) + k.length +
                (ds2.length + 1 + 1)
              keyLenBuf := ds1
              keyLen := k.length
              key := k
              valueLenBuf := ds2
              valueLen := v.length } := by
    simp only [arm, entryState, hll2]
    try simp [entryState]
  rw [runFrom_of_arm_goto _ _ _ h3]
  have hd9 : B.drop (3 + (ds1.length + 1 + 1) + k.length +
      (ds2.length + 1 + 1)) = v ++ suffix := by
    rw [hB]
    rw [show opSET ++ ds1 ++ [58] ++ k ++ [58] ++ ds2 ++ [58] ++ v ++
        suffix = (opSET ++ ds1 ++ [58] ++ k ++ [58] ++ ds2 ++ [58]) ++
          (v ++ suffix) by
      simp [List.append_assoc]]
    exact drop_pfx _ _ _ (by simp [opSET]; omega)
  have hcp2 : copyLoop (B.drop (3 + (ds1.length + 1 + 1) + k.length +
      (ds2.length + 1 + 1))) [] v.length = (v.length, v) := by
    rw [hd9]
    have h := copyLoop_spec v suffix [] v.length (by simp)
    simpa using h
  have h4 : arm { entryState .set 3 B with
      state := .readValue
      ptr := 3 + (ds1.length + 1 + 1) + k.length + (ds2.length + 1 + 1)
      keyLenBuf := ds1
      keyLen := k.length
      key := k
      valueLenBuf := ds2
      valueLen := v.length } =
      .goto { entryState .set 3 B with
              state := .done
              ptr := 3 + (ds1.length + 1 + 1) + k.length +
                (ds2.length + 1 + 1) + v.length
              keyLenBuf := ds1
              keyLen := k.length
              key := k
              valueLenBuf := ds2
              valueLen := v.length
              value := v } := by
    simp only [arm, entryState, hcp2]
    simp [entryState]
  rw [runFrom_of_arm_goto _ _ _ h4]
  by_cases hu : utf8Valid k
  · have h5 : arm { entryState .set 3 B with
        state := .done
        ptr := 3 + (ds1.length + 1 + 1) + k.length + (ds2.length + 1 + 1) +
          v.length
        keyLenBuf := ds1
        keyLen := k.length
        key := k
        valueLenBuf := ds2
        valueLen := v.length
        value := v } = .ret (.ok (.set k v)) ⟨B, false⟩ := by
      simp [arm, entryState, hu]
    rw [runFrom_ret _ _ _ _ (drive_of_ret _ _ _ h5), if_pos hu]
  · have h5 : arm { entryState .set 3 B with
        state := .done
        ptr := 3 + (ds1.length + 1 + 1) + k.length + (ds2.length + 1 + 1) +
          v.length
        keyLenBuf := ds1
        keyLen := k.length
        key := k
        valueLenBuf := ds2
        valueLen := v.length
        value := v } = .ret (.err .keyUtf8) ⟨B, false⟩ := by
      simp [arm, entryState, hu]
    rw [runFrom_ret _ _ _ _ (drive_of_ret _ _ _ h5), if_neg hu]

theorem take_pfx (a b : List Nat) (n : Nat) (h : n = a.length) :
    (a ++ b).take n = a := by
  subst h
  exact List.take_left a b

theorem wire_take4_get (k : List Nat) : (wire (.get k)).take 4 = opGET := by
  rw [wire]
  rw [show opGET ++ decDigits k.length ++ [58] ++ k ++ [10] =
      opGET ++ (decDigits k.length ++ [58] ++ k ++ [10]) by
    simp [List.append_assoc]]
  exact take_pfx _ _ _ (by simp [opGET])

theorem wire_take4_set (k v : List Nat) : (wire (.set k v)).take 4 = opSET := by
  rw [wire]
  rw [show opSET ++ decDigits k.length ++ [58] ++ k ++ [58] ++
      decDigits v.length ++ [58] ++ v ++ [10] =
      opSET ++ (decDigits k.length ++ [58] ++ k ++ [58] ++
        decDigits v.length ++ [58] ++ v ++ [10]) by
    simp [List.append_assoc]]
  exact take_pfx _ _ _ (by simp [opSET])

theorem wire_take4_echo (msg : List Nat) :
    (wire (.echo msg)).take 4 = opECHO := by
  rw [wire]
  rw [show opECHO ++ [58] ++ decDigits msg.length ++ [58] ++ msg ++ [10] =
      opECHO ++ ([58] ++ decDigits msg.length ++ [58] ++ msg ++ [10]) by
    simp [List.append_assoc]]
  exact take_pfx _ _ _ (by simp [opECHO])

/-- Helper for the chunking-invariance proof: after the fresh-session refill
with a first chunk holding at least the four opcode bytes of a well-formed
wire, the run over the remaining chunks yields the parsed request. -/
theorem protoRead_wire (r : Request) (hw : WellFormed r) (c₁ : List Nat)
    (cs : List (List Nat)) (h4 : 4 ≤ c₁.length)
    (hsplit : c₁ ++ cs.flatten = wire r) :
    (protoRead freshSession ((c₁ :: cs).map Event.chunk)).1 = .ok (reqOp r) := by
  show (runFrom (refill (initM freshSession) c₁) (cs.map Event.chunk)).1 =
    .ok (reqOp r)
  have hA : arm (refill (initM freshSession) c₁) =
      .goto { refill (initM freshSession) c₁ with
              state := .readOp
              fresh := false } := by
    simp [arm, refill, initM, freshSession]
  rw [runFrom_of_arm_goto _ _ _ hA]
  have hc₁ : c₁.take 4 = (wire r).take 4 := by
    rw [← hsplit]
    exact (List.take_append_of_le_length h4).symm
  cases r with
  | get k =>
    obtain ⟨hu, hk⟩ := hw
    have htok : c₁.take 4 = opGET := by rw [hc₁, wire_take4_get]
    have hB : arm { refill (initM freshSession) c₁ with
        state := .readOp
        fresh := false } = .goto (entryState .get 3 ([] ++ c₁)) := by
      simp only [arm, refill, initM, freshSession]
      rw [if_neg (by simp; omega)]
      simp [htok, entryState]
    rw [runFrom_of_arm_goto _ _ _ hB]
    have hclean : Clean (entryState .get 3 ([] ++ c₁)) := by
      refine ⟨by simp [LinState, entryState], rfl, ?_⟩
      simp [entryState]
      omega
    rw [runFrom_chunks cs _ hclean]
    have hbufeq : extBuf cs.flatten (entryState .get 3 ([] ++ c₁)) =
        entryState .get 3 (opGET ++ decDigits k.length ++ [58] ++ k ++
          [10]) := by
      simp only [extBuf, entryState]
      rw [show ([] ++ c₁ : List Nat) = c₁ from rfl, hsplit]
      rfl
    rw [hbufeq, runFrom_get k [10] hk []]
    simp [reqOp, hu]
  | set k v =>
    obtain ⟨hu, hk, hv⟩ := hw
    have htok : c₁.take 4 = opSET := by rw [hc₁, wire_take4_set]
    have hB : arm { refill (initM freshSession) c₁ with
        state := .readOp
        fresh := false } = .goto (entryState .set 3 ([] ++ c₁)) := by
      simp only [arm, refill, initM, freshSession]
      rw [if_neg (by simp; omega)]
      simp [htok, entryState, opGET, opSET]
    rw [runFrom_of_arm_goto _ _ _ hB]
    have hclean : Clean (entryState .set 3 ([] ++ c₁)) := by
      refine ⟨by simp [LinState, entryState], rfl, ?_⟩
      simp [entryState]
      omega
    rw [runFrom_chunks cs _ hclean]
    have hbufeq : extBuf cs.flatten (entryState .set 3 ([] ++ c₁)) =
        entryState .set 3 (opSET ++ decDigits k.length ++ [58] ++ k ++
          [58] ++ decDigits v.length ++ [58] ++ v ++ [10]) := by
      simp only [extBuf, entryState]
      rw [show ([] ++ c₁ : List Nat) = c₁ from rfl, hsplit]
      rfl
    rw [hbufeq, runFrom_set k v [10] hk hv []]
    simp [reqOp, hu]
  | echo msg =>
    have hm := hw
    have htok : c₁.take 4 = opECHO := by rw [hc₁, wire_take4_echo]
    have hB : arm { refill (initM freshSession) c₁ with
        state := .readOp
        fresh := false } = .goto (entryState .echo 4 ([] ++ c₁)) := by
      simp only [arm, refill, initM, freshSession]
      rw [if_neg (by simp; omega)]
      simp [htok, entryState, opGET, opSET, opECHO]
    rw [runFrom_of_arm_goto _ _ _ hB]
    have hclean : Clean (entryState .echo 4 ([] ++ c₁)) := by
      refine ⟨by simp [LinState, entryState], rfl, ?_⟩
      simp [entryState]
      omega
    rw [runFrom_chunks cs _ hclean]
    have hbufeq : extBuf cs.flatten (entryState .echo 4 ([] ++ c₁)) =
        entryState .echo 4 (opECHO ++ [58] ++ decDigits msg.length ++ [58] ++
          msg ++ [10]) := by
      simp only [extBuf, entryState]
      rw [show ([] ++ c₁ : List Nat) = c₁ from rfl, hsplit]
      rfl
    rw [hbufeq, runFrom_echo msg [10] hm []]
    simp [reqOp]

/-! ## Facts about the LSM store -/

/-- The accumulator step of `lastWrite` for one instruction. -/
def lwStep (k : String) (a : Option (Option (List Nat))) :
    TransactInstruction → Option (Option (List Nat))
  | .set k' v => if k' = k then some (some v) else a
  | .delete k' => if k' = k then some none else a

theorem lastWrite_eq_foldl (ts : List Transaction) (k : String) :
    lastWrite ts k =
      ts.foldl (fun a t => t.instructions.foldl (lwStep k) a) none := by
  rfl

theorem mtLookup_apply (st : LSMStoreData) (i : TransactInstruction)
    (k : String) (acc : Option (Option (List Nat)))
    (h : mtLookup st.memtable k = acc) :
    mtLookup (applyInstruction st i).memtable k = lwStep k acc i := by
  cases i with
  | set k' v =>
    by_cases he : k' = k <;> simp [applyInstruction, mtLookup, lwStep, he, h]
  | delete k' =>
    by_cases he : k' = k <;> simp [applyInstruction, mtLookup, lwStep, he, h]

theorem mtLookup_foldl (l : List TransactInstruction) :
    ∀ (st : LSMStoreData) (k : String) (acc : Option (Option (List Nat))),
      mtLookup st.memtable k = acc →
      mtLookup (l.foldl applyInstruction st).memtable k =
        l.foldl (lwStep k) acc := by
  induction l with
  | nil => intro st k acc h; simpa using h
  | cons i l ih =>
    intro st k acc h
    simp only [List.foldl_cons]
    exact ih _ k _ (mtLookup_apply st i k acc h)

theorem mtLookup_txns (ts : List Transaction) :
    ∀ (st : LSMStoreData) (k : String) (acc : Option (Option (List Nat))),
      mtLookup st.memtable k = acc →
      mtLookup (ts.foldl transact st).memtable k =
        ts.foldl (fun a t => t.instructions.foldl (lwStep k) a) acc := by
  induction ts with
  | nil => intro st k acc h; simpa using h
  | cons t ts ih =>
    intro st k acc h
    simp only [List.foldl_cons]
    exact ih _ k _ (mtLookup_foldl t.instructions st k acc h)

/-- The memtable after a transaction sequence holds exactly the effect of
the last instruction concerning each key. -/
theorem mtLookup_applyTxns (ts : List Transaction) (k : String) :
    mtLookup (applyTxns ts).memtable k = lastWrite ts k := by
  rw [lastWrite_eq_foldl]
  exact mtLookup_txns ts lsmNew k none rfl

theorem inserted_mono_apply (st : LSMStoreData) (i : TransactInstruction)
    (k : String) (h : k ∈ st.inserted) :
    k ∈ (applyInstruction st i).inserted := by
  cases i <;> simp [applyInstruction]
  · exact Or.inr h
  · exact h

/-- If the last write for `k` so far is a `Set`, then `k` is in the filter;
preserved by every further instruction. -/
theorem lwInserted_apply (st : LSMStoreData) (i : TransactInstruction)
    (k : String) (acc : Option (Option (List Nat)))
    (h : ∀ v, acc = some (some v) → k ∈ st.inserted) :
    ∀ v, lwStep k acc i = some (some v) →
      k ∈ (applyInstruction st i).inserted := by
  intro v hv
  cases i with
  | set k' w =>
    by_cases he : k' = k
    · simp [applyInstruction, he]
    · simp [lwStep, he] at hv
      exact inserted_mono_apply st _ k (h v hv)
  | delete k' =>
    by_cases he : k' = k
    · simp [lwStep, he] at hv
    · simp [lwStep, he] at hv
      exact inserted_mono_apply st _ k (h v hv)

theorem lwInserted_foldl (l : List TransactInstruction) :
    ∀ (st : LSMStoreData) (k : String) (acc : Option (Option (List Nat))),
      (∀ v, acc = some (some v) → k ∈ st.inserted) →
      ∀ v, l.foldl (lwStep k) acc = some (some v) →
        k ∈ (l.foldl applyInstruction st).inserted := by
  induction l with
  | nil => intro st k acc h v hv; exact h v hv
  | cons i l ih =>
    intro st k acc h v hv
    simp only [List.foldl_cons] at hv ⊢
    exact ih _ k _ (fun w hw => lwInserted_apply st i k acc h w hw) v hv

theorem lwInserted_txns (ts : List Transaction) :
    ∀ (st : LSMStoreData) (k : String) (acc : Option (Option (List Nat))),
      (∀ v, acc = some (some v) → k ∈ st.inserted) →
      ∀ v, ts.foldl (fun a t => t.instructions.foldl (lwStep k) a) acc =
          some (some v) →
        k ∈ (ts.foldl transact st).inserted := by
  induction ts with
  | nil => intro st k acc h v hv; exact h v hv
  | cons t ts ih =>
    intro st k acc h v hv
    simp only [List.foldl_cons] at hv ⊢
    exact ih _ k _ (fun w hw => lwInserted_foldl t.instructions st k acc h w hw)
      v hv

theorem lastWrite_set_inserted (ts : List Transaction) (k : String)
    (v : List Nat) (h : lastWrite ts k = some (some v)) :
    k ∈ (applyTxns ts).inserted := by
  rw [lastWrite_eq_foldl] at h
  exact lwInserted_txns ts lsmNew k none (by simp) v h

/-- Every key in the filter has a memtable entry (only `Set` inserts into
the filter, and `Set` also writes the memtable, which never drops keys). -/
theorem inserted_covered_apply (st : LSMStoreData) (i : TransactInstruction)
    (h : ∀ k, k ∈ st.inserted → mtLookup st.memtable k ≠ none) :
    ∀ k, k ∈ (applyInstruction st i).inserted →
      mtLookup (applyInstruction st i).memtable k ≠ none := by
  intro k hk
  cases i with
  | set k' v =>
    simp only [applyInstruction, List.mem_cons] at hk
    rcases hk with rfl | hk
    · simp [mtLookup]
    · by_cases he : k' = k
      · simp [mtLookup, he]
      · simp [mtLookup, he]
        exact h k hk
  | delete k' =>
    simp only [applyInstruction] at hk
    by_cases he : k' = k
    · simp [mtLookup, he]
    · simp [mtLookup, he]
      exact h k hk

theorem inserted_covered_foldl (l : List TransactInstruction) :
    ∀ st : LSMStoreData,
      (∀ k, k ∈ st.inserted → mtLookup st.memtable k ≠ none) →
      ∀ k, k ∈ (l.foldl applyInstruction st).inserted →
        mtLookup (l.foldl applyInstruction st).memtable k ≠ none := by
  induction l with
  | nil => intro st h; exact h
  | cons i l ih =>
    intro st h
    exact ih _ (inserted_covered_apply st i h)

theorem inserted_covered_applyTxns (ts : List Transaction) :
    ∀ k, k ∈ (applyTxns ts).inserted →
      mtLookup (applyTxns ts).memtable k ≠ none := by
  have main : ∀ st : LSMStoreData,
      (∀ k, k ∈ st.inserted → mtLookup st.memtable k ≠ none) →
      ∀ k, k ∈ (ts.foldl transact st).inserted →
        mtLookup (ts.foldl transact st).memtable k ≠ none := by
    induction ts with
    | nil => intro st h; exact h
    | cons t ts ih =>
      intro st h
      exact ih _ (inserted_covered_foldl t.instructions st h)
  exact main lsmNew (by intro k hk; simp [lsmNew] at hk)

/-- Keys in the filter were written by some instruction. -/
theorem inserted_written_apply (st : LSMStoreData) (i : TransactInstruction)
    (k : String) (hk : instrKey i ≠ k) (h : k ∉ st.inserted) :
    k ∉ (applyInstruction st i).inserted := by
  cases i with
  | set k' v =>
    simp only [instrKey] at hk
    simp [applyInstruction]
    exact ⟨fun he => hk he.symm, h⟩
  | delete k' => simpa [applyInstruction] using h

theorem inserted_written_foldl (l : List TransactInstruction) :
    ∀ (st : LSMStoreData) (k : String), (∀ i ∈ l, instrKey i ≠ k) →
      k ∉ st.inserted → k ∉ (l.foldl applyInstruction st).inserted := by
  induction l with
  | nil => intro st k _ h; exact h
  | cons i l ih =>
    intro st k hl h
    simp only [List.foldl_cons]
    exact ih _ k (fun j hj => hl j (List.mem_cons_of_mem i hj))
      (inserted_written_apply st i k (hl i (List.mem_cons_self i l)) h)

theorem inserted_written_txns (ts : List Transaction) :
    ∀ (st : LSMStoreData) (k : String),
      (∀ t ∈ ts, ∀ i ∈ t.instructions, instrKey i ≠ k) →
      k ∉ st.inserted → k ∉ (ts.foldl transact st).inserted := by
  induction ts with
  | nil => intro st k _ h; exact h
  | cons t ts ih =>
    intro st k hl h
    simp only [List.foldl_cons]
    exact ih _ k (fun u hu i hi => hl u (List.mem_cons_of_mem t hu) i hi)
      (inserted_written_foldl t.instructions st k
        (fun i hi => hl t (List.mem_cons_self t ts) i hi) h)

/-- A key never named by any instruction is never inserted into the
filter. -/
theorem neverWritten_not_inserted (ts : List Transaction) (k : String)
    (h : ∀ t ∈ ts, ∀ i ∈ t.instructions, instrKey i ≠ k) :
    k ∉ (applyTxns ts).inserted :=
  inserted_written_txns ts lsmNew k h (by simp [lsmNew])

/-! ## Claim C1: chunking invariance -/

/-- C1 (counterexample): the claim fails as stated.  A single well-formed
request `GET:1:k\n` delivered in one-byte chunks at session start returns the
malformed-input error of the `ptr == 0` branch of `State::ReadOp` (the first
refill holds one byte, fewer than the four opcode bytes), while single-chunk
delivery parses the request. -/
theorem c1_counterexample :
    (protoRead freshSession
      (([[71], [69], [84], [58], [49], [58], [107], [10]] :
        List (List Nat)).map Event.chunk)).1 = .err .opShort ∧
    (protoRead freshSession
      [Event.chunk [71, 69, 84, 58, 49, 58, 107, 10]]).1 =
      .ok (.get [107]) := by
  exact ⟨rfl, rfl⟩

/-- C1 (amended): for a single well-formed request, repeated-read delivery
yields exactly that parsed request for every way the wire is split into
chunks whose first chunk carries at least the four opcode bytes
(`MIN_BUF_SIZE`); with a shorter first chunk the reader errors out by design
(see the counterexample), and a multi-request stream can be corrupted by the
absolute-cursor bug recorded at claim C4. -/
theorem c1_chunking_invariance (r : Request) (hw : WellFormed r)
    (c₁ : List Nat) (cs : List (List Nat)) (h4 : 4 ≤ c₁.length)
    (hsplit : c₁ ++ cs.flatten = wire r) :
    (protoRead freshSession ((c₁ :: cs).map Event.chunk)).1 =
      .ok (reqOp r) :=
  protoRead_wire r hw c₁ cs h4 hsplit

/-- C1 (witness): `GET:1:k\n` delivered as `GET:` then one byte at a time. -/
theorem c1_witness :
    WellFormed (.get [107]) ∧
    4 ≤ ([71, 69, 84, 58] : List Nat).length ∧
    [71, 69, 84, 58] ++
      ([[49], [58], [107], [10]] : List (List Nat)).flatten =
      wire (.get [107]) ∧
    (protoRead freshSession
      (([71, 69, 84, 58] :: [[49], [58], [107], [10]]).map Event.chunk)).1 =
      .ok (reqOp (.get [107])) := by
  refine ⟨⟨by decide, by decide⟩, by decide, by simp [wire, decDigits, opGET], ?_⟩
  exact c1_chunking_invariance (.get [107]) ⟨by decide, by decide⟩
    [71, 69, 84, 58] [[49], [58], [107], [10]] (by decide)
    (by simp [wire, decDigits, opGET])

/-! ## Claim C4: pipelined requests after trailing bytes -/

/-- C4 (code bug): with `GET:1:aXX\nGET:1:b\n` arriving in one refill, the
first read correctly returns `Get "a"`, but the second read also returns
`Get "a"` instead of the expected error-or-`Get "b"`.  The source drains the
bytes after the newline into `residual` and re-enters `ReadOp` with
`ptr` pointing past the first opcode, but the `GET:`/`SET:` arms then assign
`self.ptr = 3` and `self.ptr = 4` absolutely instead of advancing relative to
the token position, so the reader re-parses the first request out of the
retained buffer and the residual bytes are discarded. -/
theorem c4_absolute_cursor_bug :
    (protoRead freshSession [Event.chunk
      [71, 69, 84, 58, 49, 58, 97, 88, 88, 10,
       71, 69, 84, 58, 49, 58, 98, 10]]).1 = .ok (.get [97]) ∧
    (protoRead (protoRead freshSession [Event.chunk
      [71, 69, 84, 58, 49, 58, 97, 88, 88, 10,
       71, 69, 84, 58, 49, 58, 98, 10]]).2 []).1 = .ok (.get [97]) ∧
    (ProtoOpM.get [97] : ProtoOpM) ≠ .get [98] := by
  exact ⟨rfl, rfl, by decide⟩

/-! ## Claim C5: buffer contents after a read -/

/-- C5 (counterexample): the claim fails as stated.  After parsing
`GET:1:a\n` out of a refill that also carried a second request, `self.buf`
still holds the entire refill — including the already-consumed first request —
not just the bytes after the parsed request: only `self.ptr` advances. -/
theorem c5_counterexample :
    (protoRead freshSession [Event.chunk
      [71, 69, 84, 58, 49, 58, 97, 10,
       71, 69, 84, 58, 49, 58, 98, 10]]).1 = .ok (.get [97]) ∧
    (protoRead freshSession [Event.chunk
      [71, 69, 84, 58, 49, 58, 97, 10,
       71, 69, 84, 58, 49, 58, 98, 10]]).2.buf =
      [71, 69, 84, 58, 49, 58, 97, 10,
       71, 69, 84, 58, 49, 58, 98, 10] ∧
    ([71, 69, 84, 58, 49, 58, 97, 10,
      71, 69, 84, 58, 49, 58, 98, 10] : List Nat) ≠
      List.drop 8 [71, 69, 84, 58, 49, 58, 97, 10,
                   71, 69, 84, 58, 49, 58, 98, 10] := by
  exact ⟨rfl, rfl, by decide⟩

/-- C5 (amended): between two calls on the same reader, `self.buf` follows
the refill discipline and is never trimmed to the unconsumed suffix.  From
any machine state and any event stream, a call that returns (is not starved)
does one of exactly three things: it returns without performing any
`read_buf`, leaving `self.buf` exactly as it was on entry; it returns from
the EOF / cancellation / I/O-error branch of the refill with the buffer
cleared; or it performed at least one refill, and the session's buffer is
exactly the most recent refill — the drained residual prepended to the bytes
`read_buf` appended — with `drive` carrying the refilled state straight to
this return, so no state-machine arm after the last refill changed the
buffer.  Consumed bytes are tracked by `self.ptr` alone; bytes of an
already-produced request stay in the buffer (see the counterexample). -/
theorem c5_buffer_is_last_refill (evs : List Event) (m : MState)
    (r : ProtoResult) (s : Session) (hrun : runFrom m evs = (r, s))
    (hns : r ≠ .starved) :
    (drive m = .ret r s ∧ s.buf = m.buf) ∨
    s.buf = [] ∨
    ∃ (mr : MState) (c : List Nat),
      drive (refill mr c) = .ret r s ∧ s.buf = mr.residual ++ c := by
  induction evs generalizing m with
  | nil =>
    rw [runFrom] at hrun
    cases hd : drive m with
    | ret r0 s0 =>
      rw [hd] at hrun
      have hrs : (r0, s0) = (r, s) := hrun
      cases hrs
      exact Or.inl ⟨rfl, drive_ret_buf m r s hd⟩
    | goto mr => exact absurd hd (drive_no_goto m mr)
    | needRead mr =>
      rw [hd] at hrun
      have hrs : ((.starved : ProtoResult), (⟨[], mr.fresh⟩ : Session)) =
          (r, s) := hrun
      cases hrs
      exact absurd rfl hns
  | cons ev rest ih =>
    rw [runFrom] at hrun
    cases hd : drive m with
    | ret r0 s0 =>
      rw [hd] at hrun
      have hrs : (r0, s0) = (r, s) := hrun
      cases hrs
      exact Or.inl ⟨rfl, drive_ret_buf m r s hd⟩
    | goto mr => exact absurd hd (drive_no_goto m mr)
    | needRead mr =>
      rw [hd] at hrun
      cases ev with
      | chunk c =>
        have hrun2 : runFrom (refill mr c) rest = (r, s) := hrun
        rcases ih (refill mr c) hrun2 with ⟨hret, hbuf⟩ | hnil |
          ⟨mr2, c2, hret, hbuf⟩
        · refine Or.inr (Or.inr ⟨mr, c, hret, ?_⟩)
          simpa [refill] using hbuf
        · exact Or.inr (Or.inl hnil)
        · exact Or.inr (Or.inr ⟨mr2, c2, hret, hbuf⟩)
      | eofEv =>
        have hrs : ((.ok .sysClose : ProtoResult),
            (⟨[], mr.fresh⟩ : Session)) = (r, s) := hrun
        cases hrs
        exact Or.inr (Or.inl rfl)
      | cancelEv =>
        have hrs : ((.ok .cancelled : ProtoResult),
            (⟨[], mr.fresh⟩ : Session)) = (r, s) := hrun
        cases hrs
        exact Or.inr (Or.inl rfl)
      | ioErrEv =>
        have hrs : ((.err .ioError : ProtoResult),
            (⟨[], mr.fresh⟩ : Session)) = (r, s) := hrun
        cases hrs
        exact Or.inr (Or.inl rfl)

/-- C5 (witness): a non-fresh reader whose retained buffer holds only the
previous request's newline drains it, needs a read, and after the refill
with `GET:1:a\n` returns `Get "a"` with the whole refill as its buffer. -/
theorem c5_witness :
    runFrom (initM ⟨[10], false⟩)
      [Event.chunk [71, 69, 84, 58, 49, 58, 97, 10]] =
      (.ok (.get [97]), ⟨[71, 69, 84, 58, 49, 58, 97, 10], false⟩) ∧
    (ProtoResult.ok (.get [97]) : ProtoResult) ≠ .starved ∧
    ((drive (initM ⟨[10], false⟩) =
        .ret (.ok (.get [97])) ⟨[71, 69, 84, 58, 49, 58, 97, 10], false⟩ ∧
      (Session.mk [71, 69, 84, 58, 49, 58, 97, 10] false).buf =
        (initM ⟨[10], false⟩).buf) ∨
     (Session.mk [71, 69, 84, 58, 49, 58, 97, 10] false).buf = [] ∨
     ∃ (mr : MState) (c : List Nat),
       drive (refill mr c) =
         .ret (.ok (.get [97])) ⟨[71, 69, 84, 58, 49, 58, 97, 10], false⟩ ∧
       (Session.mk [71, 69, 84, 58, 49, 58, 97, 10] false).buf =
         mr.residual ++ c) :=
  ⟨by decide, by decide,
   c5_buffer_is_last_refill [Event.chunk [71, 69, 84, 58, 49, 58, 97, 10]]
     (initM ⟨[10], false⟩) (.ok (.get [97]))
     ⟨[71, 69, 84, 58, 49, 58, 97, 10], false⟩ (by decide) (by decide)⟩

/-! ## Claim C6: EOF and I/O errors during a read -/

/-- C6: whenever the reader performs a `read_buf` refill (the machine is in a
`needRead` position), an `UnexpectedEof` from the source makes `read` return
`Ok(SysClose)`, while any other I/O error is propagated as `Err`; in
particular a brand-new session that sees immediate EOF returns `SysClose`. -/
theorem c6_eof_returns_sysClose (m mr : MState) (rest : List Event)
    (h : drive m = .needRead mr) :
    runFrom m (.eofEv :: rest) = (.ok .sysClose, ⟨[], mr.fresh⟩) ∧
    runFrom m (.ioErrEv :: rest) = (.err .ioError, ⟨[], mr.fresh⟩) ∧
    (protoRead freshSession (.eofEv :: rest)).1 = .ok .sysClose :=
  ⟨runFrom_needRead_eof m mr rest h, runFrom_needRead_ioErr m mr rest h, rfl⟩

/-- C6 (witness): a non-fresh session with an empty buffer awaits bytes; EOF
yields `SysClose` and an I/O error yields `Err`. -/
theorem c6_witness :
    runFrom (initM ⟨[], false⟩) [.eofEv] = (.ok .sysClose, ⟨[], false⟩) ∧
    runFrom (initM ⟨[], false⟩) [.ioErrEv] = (.err .ioError, ⟨[], false⟩) ∧
    (protoRead freshSession [.eofEv]).1 = .ok .sysClose := by
  exact c6_eof_returns_sysClose (initM ⟨[], false⟩) (initM ⟨[], false⟩) []
    (by decide)

/-! ## Claim C8: ECHO round trip -/

/-- C8: an `ECHO:<len>:<msg>\n` request parses back the message verbatim
(including an empty message), and `write_echo_resp` emits exactly
`<len>:<msg>\n` for it. -/
theorem c8_echo_roundtrip (msg : List Nat) (h : msg.length < 2 ^ 64) :
    (protoRead freshSession [Event.chunk (wire (.echo msg))]).1 =
      .ok (.echo msg) ∧
    writeEcho msg = decDigits msg.length ++ [58] ++ msg ++ [10] := by
  constructor
  · have h4 : 4 ≤ (wire (.echo msg)).length := by
      simp [wire, opECHO]
    have hp := protoRead_wire (.echo msg) h (wire (.echo msg)) []
      h4 (by simp)
    simpa [reqOp] using hp
  · rfl

/-- C8 (witness): the empty message round-trips; its response bytes are
`0:\n`. -/
theorem c8_witness :
    ([] : List Nat).length < 2 ^ 64 ∧
    (protoRead freshSession [Event.chunk (wire (.echo []))]).1 =
      .ok (.echo []) ∧
    writeEcho [] = [48, 58, 10] := by
  refine ⟨by decide, (c8_echo_roundtrip [] (by decide)).1, ?_⟩
  simp [writeEcho, decDigits]

/-! ## Claim C9: malformed input errors -/

/-- C9 (counterexample): the claim fails as stated.  The key-length field is
parsed with Rust `usize::from_str`, which accepts a leading `+`, so
`GET:+1:a\n` is not rejected: it parses as `Get "a"` instead of returning a
key-length parse error. -/
theorem c9_counterexample :
    (protoRead freshSession
      [Event.chunk [71, 69, 84, 58, 43, 49, 58, 97, 10]]).1 =
      .ok (.get [97]) := by
  exact rfl

/-- C9 (amended): each malformed-input family is rejected with `Err`, with
the length-field caveat that `usize::from_str` also accepts a leading `+`
(see the counterexample): an unknown four-byte opcode; a non-colon byte
where a colon is expected, both after the `ECHO` opcode and before the
value length of a `SET`; a colon-free length field containing a byte that
is neither an ASCII digit nor a leading `+`; and a key that is not valid
UTF-8. -/
theorem c9_malformed_errors :
    (∀ c : List Nat, 4 ≤ c.length → c.take 4 ≠ opGET → c.take 4 ≠ opSET →
      c.take 4 ≠ opECHO →
      (protoRead freshSession [Event.chunk c]).1 = .err .opUnknown) ∧
    (∀ (b : Nat) (t : List Nat), b ≠ 58 →
      (protoRead freshSession [Event.chunk (opECHO ++ b :: t)]).1 =
        .err .keyLenColon) ∧
    (∀ (ds rest : List Nat) (i : Nat) (hi : i < ds.length),
      (∀ x ∈ ds, x ≠ 58) →
      ¬(48 ≤ ds.get ⟨i, hi⟩ ∧ ds.get ⟨i, hi⟩ ≤ 57) →
      ¬(i = 0 ∧ ds.get ⟨i, hi⟩ = 43) →
      (protoRead freshSession
        [Event.chunk (opGET ++ ds ++ 58 :: rest)]).1 = .err .keyLenParse) ∧
    (∀ k rest : List Nat, k.length < 2 ^ 64 → utf8Valid k = false →
      (protoRead freshSession [Event.chunk
        (opGET ++ decDigits k.length ++ [58] ++ k ++ rest)]).1 =
        .err .keyUtf8) ∧
    (∀ (k t : List Nat) (b : Nat), k.length < 2 ^ 64 → b ≠ 58 →
      (protoRead freshSession [Event.chunk
        (opSET ++ decDigits k.length ++ [58] ++ k ++ b :: t)]).1 =
        .err .valueLenColon) := by
  refine ⟨?_, ?_, ?_, ?_, ?_⟩
  · intro c h4 hg hs he
    show (runFrom (refill (initM freshSession) c) []).1 = _
    have hA : arm (refill (initM freshSession) c) =
        .goto { refill (initM freshSession) c with
                state := .readOp
                fresh := false } := by
      simp [arm, refill, initM, freshSession]
    rw [runFrom_of_arm_goto _ _ _ hA]
    have hB : arm { refill (initM freshSession) c with
        state := .readOp
        fresh := false } = .ret (.err .opUnknown) ⟨c, false⟩ := by
      simp only [arm, refill, initM, freshSession]
      rw [if_neg (by simp; omega)]
      simp [hg, hs, he]
    rw [runFrom_ret _ _ _ _ (drive_of_ret _ _ _ hB)]
  · intro b t hb
    show (runFrom (refill (initM freshSession) (opECHO ++ b :: t)) []).1 = _
    have hA : arm (refill (initM freshSession) (opECHO ++ b :: t)) =
        .goto { refill (initM freshSession) (opECHO ++ b :: t) with
                state := .readOp
                fresh := false } := by
      simp [arm, refill, initM, freshSession]
    rw [runFrom_of_arm_goto _ _ _ hA]
    have htok : (opECHO ++ b :: t).take 4 = opECHO :=
      take_pfx opECHO (b :: t) 4 rfl
    have hB : arm { refill (initM freshSession) (opECHO ++ b :: t) with
        state := .readOp
        fresh := false } = .goto (entryState .echo 4 (opECHO ++ b :: t)) := by
      simp only [arm, refill, initM, freshSession]
      rw [if_neg (by simp [opECHO])]
      simp [htok, entryState, opGET, opSET, opECHO]
    rw [runFrom_of_arm_goto _ _ _ hB]
    have hdrop : (opECHO ++ b :: t).drop 4 = b :: t :=
      drop_pfx opECHO (b :: t) 4 rfl
    have hC : arm (entryState .echo 4 (opECHO ++ b :: t)) =
        .ret (.err .keyLenColon) ⟨opECHO ++ b :: t, false⟩ := by
      simp only [arm, entryState, hdrop, lenLoop]
      rw [if_neg hb]
    rw [runFrom_ret _ _ _ _ (drive_of_ret _ _ _ hC)]
  · intro ds rest i hi hcf hbad hplus
    show (runFrom (refill (initM freshSession)
      (opGET ++ ds ++ 58 :: rest)) []).1 = _
    have hA : arm (refill (initM freshSession) (opGET ++ ds ++ 58 :: rest)) =
        .goto { refill (initM freshSession) (opGET ++ ds ++ 58 :: rest) with
                state := .readOp
                fresh := false } := by
      simp [arm, refill, initM, freshSession]
    rw [runFrom_of_arm_goto _ _ _ hA]
    have hB : arm { refill (initM freshSession)
        (opGET ++ ds ++ 58 :: rest) with
        state := .readOp
        fresh := false } =
        .goto (entryState .get 3 (opGET ++ ds ++ 58 :: rest)) := by
      simp only [arm, refill, initM, freshSession]
      rw [if_neg (by simp [opGET])]
      simp [entryState, opGET, opSET, opECHO]
    rw [runFrom_of_arm_goto _ _ _ hB]
    have hdrop : (opGET ++ ds ++ 58 :: rest).drop 3 =
        58 :: (ds ++ 58 :: rest) := by
      simp [opGET, List.append_assoc]
    have hC : arm (entryState .get 3 (opGET ++ ds ++ 58 :: rest)) =
        .ret (.err .keyLenParse) ⟨opGET ++ ds ++ 58 :: rest, false⟩ := by
      have hll : lenLoop ((opGET ++ ds ++ 58 :: rest).drop 3) false [] =
          .errParse := by
        rw [hdrop]
        simp only [lenLoop, if_pos rfl]
        rw [lenLoop_digits ds rest [] hcf]
        simp [parseLen_bad ds i hi hbad hplus, LenOut.bump]
      simp only [arm, entryState, hll]
    rw [runFrom_ret _ _ _ _ (drive_of_ret _ _ _ hC)]
  · intro k rest hk hu
    show (runFrom (refill (initM freshSession)
      (opGET ++ decDigits k.length ++ [58] ++ k ++ rest)) []).1 = _
    have hA : arm (refill (initM freshSession)
        (opGET ++ decDigits k.length ++ [58] ++ k ++ rest)) =
        .goto { refill (initM freshSession)
                  (opGET ++ decDigits k.length ++ [58] ++ k ++ rest) with
                state := .readOp
                fresh := false } := by
      simp [arm, refill, initM, freshSession]
    rw [runFrom_of_arm_goto _ _ _ hA]
    have hB : arm { refill (initM freshSession)
        (opGET ++ decDigits k.length ++ [58] ++ k ++ rest) with
        state := .readOp
        fresh := false } =
        .goto (entryState .get 3
          (opGET ++ decDigits k.length ++ [58] ++ k ++ rest)) := by
      simp only [arm, refill, initM, freshSession]
      rw [if_neg (by simp [opGET])]
      simp [entryState, opGET, opSET, opECHO]
    rw [runFrom_of_arm_goto _ _ _ hB]
    rw [runFrom_get k rest hk []]
    simp [hu]
  · intro k t b hk hb
    show (runFrom (refill (initM freshSession)
      (opSET ++ decDigits k.length ++ [58] ++ k ++ b :: t)) []).1 = _
    set ds1 := decDigits k.length with hds1
    set B := opSET ++ ds1 ++ [58] ++ k ++ b :: t with hBdef
    have hA : arm (refill (initM freshSession) B) =
        .goto { refill (initM freshSession) B with
                state := .readOp
                fresh := false } := by
      simp [arm, refill, initM, freshSession]
    rw [runFrom_of_arm_goto _ _ _ hA]
    have hB2 : arm { refill (initM freshSession) B with
        state := .readOp
        fresh := false } = .goto (entryState .set 3 B) := by
      simp only [arm, refill, initM, freshSession]
      rw [if_neg (by simp [hBdef, opSET])]
      simp [hBdef, entryState, opGET, opSET, opECHO]
    rw [runFrom_of_arm_goto _ _ _ hB2]
    have hd3 : B.drop 3 = 58 :: (ds1 ++ 58 :: (k ++ b :: t)) := by
      rw [hBdef]
      simp [opSET, List.append_assoc]
    have hll : lenLoop (B.drop 3) false [] =
        .finished (ds1.length + 1 + 1) ds1 k.length := by
      rw [hd3]
      simp only [lenLoop, if_pos rfl]
      rw [lenLoop_digits ds1 (k ++ b :: t) [] (decDigits_no_colon k.length)]
      simp [parseLen_decDigits k.length hk, LenOut.bump]
    have h1 : arm (entryState .set 3 B) =
        .goto { entryState .set 3 B with
                state := .readKey
                ptr := 3 + (ds1.length + 1 + 1)
                keyLenBuf := ds1
                keyLen := k.length } := by
      simp only [arm, entryState, hll]
      simp [entryState]
    rw [runFrom_of_arm_goto _ _ _ h1]
    have hd5 : B.drop (3 + (ds1.length + 1 + 1)) = k ++ b :: t := by
      rw [hBdef]
      rw [show opSET ++ ds1 ++ [58] ++ k ++ b :: t =
          (opSET ++ ds1 ++ [58]) ++ (k ++ b :: t) by
        simp [List.append_assoc]]
      exact drop_pfx _ _ _ (by simp [opSET]; omega)
    have hcp : copyLoop (B.drop (3 + (ds1.length + 1 + 1))) [] k.length =
        (k.length, k) := by
      rw [hd5]
      have h := copyLoop_spec k (b :: t) [] k.length (by simp)
      simpa using h
    have h2 : arm { entryState .set 3 B with
        state := .readKey
        ptr := 3 + (ds1.length + 1 + 1)
        keyLenBuf := ds1
        keyLen := k.length } =
        .goto { entryState .set 3 B with
                state := .readValueLen
                ptr := 3 + (ds1.length + 1 + 1) + k.length
                keyLenBuf := ds1
                keyLen := k.length
                key := k } := by
      simp only [arm, entryState, hcp]
      simp [entryState]
    rw [runFrom_of_arm_goto _ _ _ h2]
    have hd7 : B.drop (3 + (ds1.length + 1 + 1) + k.length) = b :: t := by
      rw [hBdef]
      rw [show opSET ++ ds1 ++ [58] ++ k ++ b :: t =
          (opSET ++ ds1 ++ [58] ++ k) ++ (b :: t) by
        simp [List.append_assoc]]
      exact drop_pfx _ _ _ (by simp [opSET]; omega)
    have hll2 : lenLoop (B.drop (3 + (ds1.length + 1 + 1) + k.length))
        false [] = .errColon b := by
      rw [hd7]
      simp only [lenLoop]
      rw [if_neg hb]
    have h3 : arm { entryState .set 3 B with
        state := .readValueLen
        ptr := 3 + (ds1.length + 1 + 1) + k.length
        keyLenBuf := ds1
        keyLen := k.length
        key := k } = .ret (.err .valueLenColon) ⟨B, false⟩ := by
      simp only [arm, entryState, hll2]
      try simp [entryState]
    rw [runFrom_ret _ _ _ _ (drive_of_ret _ _ _ h3)]

/-- C9 (witness): `PUT:1:a\n` is an unknown opcode, `ECHOX1:a\n` misses its
colon, `GET:a:\n` has an unparsable length, `GET:1:<0xFF>\n` carries an
invalid UTF-8 key, and `SET:1:aX\n` misses the colon before its value
length. -/
theorem c9_witness :
    (protoRead freshSession
      [Event.chunk [80, 85, 84, 58, 49, 58, 97, 10]]).1 = .err .opUnknown ∧
    (protoRead freshSession
      [Event.chunk (opECHO ++ 88 :: [49, 58, 97, 10])]).1 =
      .err .keyLenColon ∧
    (protoRead freshSession
      [Event.chunk (opGET ++ [97] ++ 58 :: [10])]).1 = .err .keyLenParse ∧
    (protoRead freshSession [Event.chunk
      (opGET ++ decDigits ([255] : List Nat).length ++ [58] ++ [255] ++
        [10])]).1 = .err .keyUtf8 ∧
    (protoRead freshSession [Event.chunk
      (opSET ++ decDigits ([97] : List Nat).length ++ [58] ++ [97] ++
        88 :: [10])]).1 = .err .valueLenColon :=
  ⟨c9_malformed_errors.1 [80, 85, 84, 58, 49, 58, 97, 10] (by decide)
      (by decide) (by decide) (by decide),
   c9_malformed_errors.2.1 88 [49, 58, 97, 10] (by decide),
   c9_malformed_errors.2.2.1 [97] [10] 0 (by decide) (by decide) (by decide)
      (by decide),
   c9_malformed_errors.2.2.2.1 [255] [10] (by decide) (by decide),
   c9_malformed_errors.2.2.2.2 [97] [10] 88 (by decide) (by decide)⟩

/-! ## Claim C2: get on a never-written key -/

/-- C2 (counterexample): the claim fails as stated.  The filter contract
allows false positives; when the filter spuriously reports a never-written
key as present, `get` goes on to the memtable lookup, finds nothing, and the
`mem_result.unwrap()` panics instead of returning absent (and the memtable
was consulted once, not zero times). -/
theorem c2_counterexample :
    lsmGet (fun _ _ => true) (applyTxns []) "never" =
      ⟨.panicked, 1, 1⟩ := by
  exact rfl

/-- C2 (amended): for a key that no transaction has ever written and on
which the filter does not fire a false positive, `get` returns absent after
exactly one filter probe and no memtable lookup.  The unqualified claim is
false: a false positive on a never-written key reaches the `unwrap` panic —
see the counterexample. -/
theorem c2_get_never_written (fp : FpOracle) (ts : List Transaction)
    (k : String)
    (hnw : ∀ t ∈ ts, ∀ i ∈ t.instructions, instrKey i ≠ k)
    (hfp : fp (applyTxns ts).inserted k = false) :
    lsmGet fp (applyTxns ts) k = ⟨.ok none, 1, 0⟩ := by
  have hni := neverWritten_not_inserted ts k hnw
  have hc : bloomContains fp (applyTxns ts).inserted k = false := by
    simp [bloomContains, hfp, hni]
  simp [lsmGet, hc]

/-- C2 (witness): with a silent oracle, a store holding only key `a` answers
a `get` for key `b` with absent after the filter probe alone. -/
theorem c2_witness :
    (∀ t ∈ [Transaction.mk [TransactInstruction.set "a" [49]]],
      ∀ i ∈ t.instructions, instrKey i ≠ "b") ∧
    (fun _ _ => false : FpOracle)
      (applyTxns [Transaction.mk [TransactInstruction.set "a" [49]]]).inserted
      "b" = false ∧
    lsmGet (fun _ _ => false)
      (applyTxns [Transaction.mk [TransactInstruction.set "a" [49]]]) "b" =
      ⟨.ok none, 1, 0⟩ :=
  ⟨by decide, rfl,
   c2_get_never_written (fun _ _ => false)
     [Transaction.mk [TransactInstruction.set "a" [49]]] "b" (by decide) rfl⟩

/-! ## Claim C3: written keys and the membership filter -/

theorem inserted_mono_foldl (l : List TransactInstruction) :
    ∀ (st : LSMStoreData) (k : String), k ∈ st.inserted →
      k ∈ (l.foldl applyInstruction st).inserted := by
  induction l with
  | nil => intro st k h; exact h
  | cons i t ih =>
    intro st k h
    exact ih (applyInstruction st i) k (inserted_mono_apply st i k h)

theorem inserted_mono_txns (ts : List Transaction) :
    ∀ (st : LSMStoreData) (k : String), k ∈ st.inserted →
      k ∈ (ts.foldl transact st).inserted := by
  induction ts with
  | nil => intro st k h; exact h
  | cons t rest ih =>
    intro st k h
    exact ih (transact st t) k (inserted_mono_foldl t.instructions st k h)

theorem set_key_inserted_foldl (l : List TransactInstruction) :
    ∀ (st : LSMStoreData) (k : String) (v : List Nat),
      TransactInstruction.set k v ∈ l →
      k ∈ (l.foldl applyInstruction st).inserted := by
  induction l with
  | nil => intro st k v h; cases h
  | cons i t ih =>
    intro st k v h
    rcases List.mem_cons.mp h with h | h
    · subst h
      exact inserted_mono_foldl t (applyInstruction st (.set k v)) k
        (by simp [applyInstruction])
    · exact ih (applyInstruction st i) k v h

theorem set_key_inserted_txns (ts : List Transaction) :
    ∀ (t : Transaction), t ∈ ts → ∀ (k : String) (v : List Nat),
      TransactInstruction.set k v ∈ t.instructions →
      ∀ st : LSMStoreData, k ∈ (ts.foldl transact st).inserted := by
  induction ts with
  | nil => intro t ht; cases ht
  | cons t₀ rest ih =>
    intro t ht k v hi st
    rcases List.mem_cons.mp ht with h | h
    · subst h
      exact inserted_mono_txns rest (transact st t) k
        (set_key_inserted_foldl t.instructions st k v hi)
    · exact ih t h k v hi (transact st t₀)

/-- C3 (counterexample): the claim fails as stated.  `Delete` writes a
tombstone to the memtable but does not insert the key into the bloom filter
(`bloom_filter.insert` is only called in the `Set` arm), so a key only ever
deleted is not a member of the filter. -/
theorem c3_counterexample :
    bloomContains (fun _ _ => false)
      (applyTxns [Transaction.mk [TransactInstruction.delete "k"]]).inserted
      "k" = false := by
  exact rfl

/-- C3 (amended): after any sequence of transactions, every key ever given
to a `Set` instruction is a member of the membership filter — no false
negative for such keys.  Keys only ever given to `Delete` are not inserted
into the filter, contrary to the unqualified claim — see the
counterexample. -/
theorem c3_set_key_in_filter (fp : FpOracle) (ts : List Transaction)
    (t : Transaction) (k : String) (v : List Nat)
    (ht : t ∈ ts) (hi : TransactInstruction.set k v ∈ t.instructions) :
    bloomContains fp (applyTxns ts).inserted k = true := by
  have hin : k ∈ (applyTxns ts).inserted :=
    set_key_inserted_txns ts t ht k v hi lsmNew
  simp [bloomContains, hin]

/-- C3 (witness): a single `Set("k", "1")` puts `k` in the filter even with
a silent false-positive oracle. -/
theorem c3_witness :
    Transaction.mk [TransactInstruction.set "k" [49]] ∈
      [Transaction.mk [TransactInstruction.set "k" [49]]] ∧
    TransactInstruction.set "k" [49] ∈
      (Transaction.mk [TransactInstruction.set "k" [49]]).instructions ∧
    bloomContains (fun _ _ => false)
      (applyTxns [Transaction.mk [TransactInstruction.set "k" [49]]]).inserted
      "k" = true :=
  ⟨by decide, by decide,
   c3_set_key_in_filter (fun _ _ => false)
     [Transaction.mk [TransactInstruction.set "k" [49]]]
     (Transaction.mk [TransactInstruction.set "k" [49]]) "k" [49]
     (by decide) (by decide)⟩

/-! ## Claim C7: last writer wins -/

/-- C7: `get` reflects the last instruction concerning the key across the
applied transactions: it returns the value of a final `Set(K,V)` and absent
after a final `Delete(K)` — for every admissible filter behaviour, including
arbitrary false positives. -/
theorem c7_last_write_wins (fp : FpOracle) (ts : List Transaction)
    (k : String) (w : Option (List Nat))
    (h : lastWrite ts k = some w) :
    (lsmGet fp (applyTxns ts) k).result = .ok w := by
  have hm : mtLookup (applyTxns ts).memtable k = some w := by
    rw [mtLookup_applyTxns, h]
  cases hcb : bloomContains fp (applyTxns ts).inserted k with
  | true => simp [lsmGet, hcb, hm]
  | false =>
    cases w with
    | some v =>
      have hin := lastWrite_set_inserted ts k v h
      have ht : bloomContains fp (applyTxns ts).inserted k = true := by
        simp [bloomContains, hin]
      simp [ht] at hcb
    | none => simp [lsmGet, hcb]

/-- C7 (witness): set-then-delete-then-get yields absent. -/
theorem c7_witness :
    lastWrite [Transaction.mk [TransactInstruction.set "k" [49]],
               Transaction.mk [TransactInstruction.delete "k"]] "k" =
      some none ∧
    (lsmGet (fun _ _ => false)
      (applyTxns [Transaction.mk [TransactInstruction.set "k" [49]],
                  Transaction.mk [TransactInstruction.delete "k"]])
      "k").result = .ok none :=
  ⟨rfl,
   c7_last_write_wins (fun _ _ => false)
     [Transaction.mk [TransactInstruction.set "k" [49]],
      Transaction.mk [TransactInstruction.delete "k"]] "k" none rfl⟩

/-! ## Claim C10: safety of the unwrap in get -/

/-- C10 (counterexample): the claim fails as stated.  The filter contract
allows a false positive on a key that was never inserted; the store then has
no memtable entry for it, and `mem_result.unwrap()` in `get` panics. -/
theorem c10_counterexample :
    (lsmGet (fun _ _ => true) (applyTxns []) "ghost").result = .panicked := by
  exact rfl

/-- C10 (amended): the `unwrap` in `get` is safe whenever the filter's
"present" answer is not a false positive on an uninserted key: if the key
was inserted into the filter, or the false-positive oracle stays silent on
it, `get` does not panic.  Under a false positive on a never-inserted key
the unwrap does panic — see the counterexample. -/
theorem c10_unwrap_safety (fp : FpOracle) (ts : List Transaction)
    (k : String)
    (h : k ∈ (applyTxns ts).inserted ∨
      fp (applyTxns ts).inserted k = false) :
    (lsmGet fp (applyTxns ts) k).result ≠ .panicked := by
  have hcov : k ∈ (applyTxns ts).inserted →
      (lsmGet fp (applyTxns ts) k).result ≠ .panicked := by
    intro hin
    have hne := inserted_covered_applyTxns ts k hin
    cases hmt : mtLookup (applyTxns ts).memtable k with
    | none => exact absurd hmt hne
    | some tv =>
      cases hcb : bloomContains fp (applyTxns ts).inserted k with
      | false => simp [lsmGet, hcb]
      | true => simp [lsmGet, hcb, hmt]
  rcases h with h | h
  · exact hcov h
  · by_cases hm : k ∈ (applyTxns ts).inserted
    · exact hcov hm
    · have hcb : bloomContains fp (applyTxns ts).inserted k = false := by
        simp [bloomContains, h, hm]
      simp [lsmGet, hcb]

/-- C10 (witness): with a silent oracle, a `get` for the inserted key `k`
does not panic. -/
theorem c10_witness :
    ("k" ∈ (applyTxns
        [Transaction.mk [TransactInstruction.set "k" [49]]]).inserted ∨
      (fun _ _ => false : FpOracle)
        (applyTxns
          [Transaction.mk [TransactInstruction.set "k" [49]]]).inserted
        "k" = false) ∧
    (lsmGet (fun _ _ => false)
      (applyTxns [Transaction.mk [TransactInstruction.set "k" [49]]])
      "k").result ≠ .panicked :=
  ⟨Or.inr rfl,
   c10_unwrap_safety (fun _ _ => false)
     [Transaction.mk [TransactInstruction.set "k" [49]]] "k" (Or.inr rfl)⟩
